import Mathlib

set_option maxHeartbeats 1000000

/-!
Verification development for the tabmat matrix abstraction layer
(quantcore.matrix / tabmat).  The shallow embedding below models the
storage-format classes over exact rationals: a matrix is represented by
its dense-equivalent column list, numeric dtypes are represented by an
explicit tag, and the external native kernels (restricted sparse matvec,
cross sandwich, vectorized dot product, column-subset helper) are
modelled from the specification, as they are not part of the sources
under verification.
-/

namespace Tabmat

/-- Numeric dtype tag: the two floating dtypes the library supports. -/
inductive Dtype where
  | f32
  | f64
deriving DecidableEq, Repr

/-- Model of numpy result_type promotion on the two supported dtypes
(used at split_matrix.py:303 and :333). -/
def resultType : Dtype → Dtype → Dtype
  | .f64, _ => .f64
  | _, .f64 => .f64
  | .f32, .f32 => .f32

/-- One matrix column, stored as the list of its entries.  Exact
rationals stand in for the floating-point values of the code. -/
abbrev Col := List ℚ

/-- Entry `r` of a column (0 outside the stored range). -/
def colEntry (c : Col) (r : ℕ) : ℚ := c.getD r 0

/-- Element `j` of the list produced by mapping `f` over `range n`. -/
theorem getD_map_range {α : Type} (f : ℕ → α) (n j : ℕ) (hj : j < n) (d : α) :
    ((List.range n).map f).getD j d = f j := by
  rw [List.getD_eq_getElem _ _ (by simpa using hj)]
  simp

/-!
### SparseMatrix (src/src/quantcore/matrix/sparse_matrix.py)

The compressed-column storage details are irrelevant to the verified
claims; the matrix content is modelled by its dense-equivalent column
list plus a dtype tag.
-/

/-- Model of a `SparseMatrix`: its dense-equivalent columns and dtype. -/
structure SpMat where
  nrows : ℕ
  cols : List Col
  dtype : Dtype
deriving DecidableEq

/-- Number of columns. -/
def SpMat.ncols (M : SpMat) : ℕ := M.cols.length

/-- Dense-equivalent entry `(r, j)` of the sparse matrix. -/
def SpMat.entry (M : SpMat) (r j : ℕ) : ℚ := colEntry (M.cols.getD j []) r

/-- Modelled from the spec: the external kernel
`transpose_square_dot_weights(data, indices, indptr, weights, dtype)`
(called at sparse_matrix.py:192-194, defined in the missing `ext.sparse`
module) computes the weighted raw second moment of every column,
`sum_r weights[r] * X[r, j]^2`. -/
def transposeSquareDotWeights (M : SpMat) (w : List ℚ) : List ℚ :=
  (List.range M.ncols).map
    (fun j => ((List.range M.nrows).map (fun r => w.getD r 0 * M.entry r j ^ 2)).sum)

/-- The argument handed to `np.sqrt` by `SparseMatrix.get_col_stds`
(sparse_matrix.py:190-201): raw second moment minus squared mean, with
negative values clamped to zero (`sqrt_arg[sqrt_arg < 0] = 0`).  The
final `np.sqrt` of the code is applied elementwise to this list. -/
def SpMat.getColStdsSqrtArg (M : SpMat) (w colMeans : List ℚ) : List ℚ :=
  (List.range M.ncols).map
    (fun j =>
      let s := (transposeSquareDotWeights M w).getD j 0 - colMeans.getD j 0 ^ 2
      if s < 0 then 0 else s)

/-- C8: for every SparseMatrix, weight vector and column-means vector,
the pre-square-root value computed by `get_col_stds` equals
`max 0 (raw second moment - mean^2)` at every column; it is therefore
never negative, so the elementwise `np.sqrt` never sees a negative
argument (no NaN) and the square root is genuine:
`(sqrt x)^2 = x`. -/
theorem sparse_get_col_stds_clamps (M : SpMat) (w cm : List ℚ) (j : ℕ)
    (hj : j < M.ncols) :
    (M.getColStdsSqrtArg w cm).getD j 0
        = max 0 ((transposeSquareDotWeights M w).getD j 0 - cm.getD j 0 ^ 2)
      ∧ 0 ≤ (M.getColStdsSqrtArg w cm).getD j 0
      ∧ Real.sqrt (((M.getColStdsSqrtArg w cm).getD j 0 : ℚ) : ℝ) ^ 2
          = (((M.getColStdsSqrtArg w cm).getD j 0 : ℚ) : ℝ) := by
  have harg : (M.getColStdsSqrtArg w cm).getD j 0
      = (if (transposeSquareDotWeights M w).getD j 0 - cm.getD j 0 ^ 2 < 0 then 0
         else (transposeSquareDotWeights M w).getD j 0 - cm.getD j 0 ^ 2) := by
    unfold SpMat.getColStdsSqrtArg
    exact getD_map_range _ _ _ hj _
  have hmax : (M.getColStdsSqrtArg w cm).getD j 0
      = max 0 ((transposeSquareDotWeights M w).getD j 0 - cm.getD j 0 ^ 2) := by
    rw [harg]
    rcases lt_or_le ((transposeSquareDotWeights M w).getD j 0 - cm.getD j 0 ^ 2) 0 with h | h
    · rw [if_pos h]
      exact (max_eq_left h.le).symm
    · rw [if_neg (not_lt.mpr h)]
      exact (max_eq_right h).symm
  have hnonneg : 0 ≤ (M.getColStdsSqrtArg w cm).getD j 0 := by
    rw [hmax]; exact le_max_left _ _
  refine ⟨hmax, hnonneg, ?_⟩
  exact Real.sq_sqrt (by exact_mod_cast hnonneg)

/-- Concrete 1x1 sparse matrix used as the C8 witness input. -/
def spWitnessMat : SpMat := ⟨1, [[1]], .f64⟩

/-- C8 witness: on the 1x1 matrix with entry 1, weights [1] and supplied
column mean 2, the raw moment is 1 and the mean square 4, so the raw
pre-sqrt value is negative and is clamped to 0. -/
theorem sparse_get_col_stds_clamps_witness :
    (0 : ℕ) < spWitnessMat.ncols
      ∧ ((spWitnessMat.getColStdsSqrtArg [1] [2]).getD 0 0
            = max 0 ((transposeSquareDotWeights spWitnessMat [1]).getD 0 0 - ([2].getD 0 0 : ℚ) ^ 2)
          ∧ 0 ≤ (spWitnessMat.getColStdsSqrtArg [1] [2]).getD 0 0
          ∧ Real.sqrt (((spWitnessMat.getColStdsSqrtArg [1] [2]).getD 0 0 : ℚ) : ℝ) ^ 2
              = (((spWitnessMat.getColStdsSqrtArg [1] [2]).getD 0 0 : ℚ) : ℝ))
      ∧ (spWitnessMat.getColStdsSqrtArg [1] [2]).getD 0 0 = 0 := by
  refine ⟨by decide, sparse_get_col_stds_clamps spWitnessMat [1] [2] 0 (by decide), ?_⟩
  norm_num [SpMat.getColStdsSqrtArg, transposeSquareDotWeights, SpMat.ncols, SpMat.entry,
    colEntry, spWitnessMat, List.range_succ]

/-!
### StandardizedMatrix (src/src/tabmat/standardized_mat.py)

The wrapped inner matrix is an arbitrary MatrixBase peer; it is modelled
by its dense-equivalent column list, and its `matvec`/`transpose_matvec`
are modelled from the spec as the reference restricted products.
-/

/-- Dense-equivalent entry `(r, j)` of a column list. -/
def denseEntry (cs : List Col) (r j : ℕ) : ℚ := colEntry (cs.getD j []) r

/-- Modelled from the spec: the inner matrix's `matvec(vec, cols)`
reference semantics, `sum over j in cols of X[r, j] * vec[j]`
(spec section 8, first testable property). -/
def refMatvec (cs : List Col) (sel : List ℕ) (v : List ℚ) (r : ℕ) : ℚ :=
  (sel.map (fun j => denseEntry cs r j * v.getD j 0)).sum

/-- Modelled from the spec: the inner matrix's
`transpose_matvec(vec, rows, cols)` reference semantics,
`sum over r in rows of X[r, j] * vec[r]`. -/
def refTransposeMatvec (cs : List Col) (rows : List ℕ) (v : List ℚ) (j : ℕ) : ℚ :=
  (rows.map (fun r => denseEntry cs r j * v.getD r 0)).sum

/-- Model of a `StandardizedMatrix`: inner matrix (dense-equivalent
columns), row count, shift vector and optional multiplier vector. -/
structure StdMat where
  inner : List Col
  nrows : ℕ
  shift : List ℚ
  mult : Option (List ℚ)
deriving DecidableEq

/-- Number of columns of the standardized view. -/
def StdMat.ncols (S : StdMat) : ℕ := S.inner.length

/-- The multiplier at column `j`, defaulting to 1 when `mult is None`. -/
def StdMat.multD (S : StdMat) (j : ℕ) : ℚ :=
  match S.mult with
  | none => 1
  | some m => m.getD j 0

/-- `StandardizedMatrix.toarray` (standardized_mat.py:264-269) read at a
single entry: `mult[None, :] * mat_part + shift[None, :]`. -/
def StdMat.toarrayEntry (S : StdMat) (r j : ℕ) : ℚ :=
  (match S.mult with
   | none => denseEntry S.inner r j
   | some m => m.getD j 0 * denseEntry S.inner r j) + S.shift.getD j 0

/-- `StandardizedMatrix.matvec` (standardized_mat.py:69-97) for a 1-D
operand: materialize `cols`, multiply the full operand by `mult`
elementwise, delegate to the inner matvec (accumulating into `out` when
supplied), and add the scalar `shift[cols] . other[cols]` to every
entry of the result. -/
def StdMat.matvec (S : StdMat) (v : List ℚ) (cols? : Option (List ℕ))
    (out? : Option (List ℚ)) : List ℚ :=
  let cols := cols?.getD (List.range S.ncols)
  let multOther := match S.mult with
    | none => v
    | some m => List.zipWith (· * ·) m v
  let out := out?.getD (List.replicate S.nrows 0)
  let matPart := (List.range out.length).map
    (fun r => out.getD r 0 + refMatvec S.inner cols multOther r)
  let shiftPart := (cols.map (fun j => S.shift.getD j 0 * v.getD j 0)).sum
  matPart.map (fun x => x + shiftPart)

/-- `StandardizedMatrix.transpose_matvec` (standardized_mat.py:178-230)
for a 1-D operand: inner transpose-matvec, scale by `mult[cols]`, add
the `shift[cols] * sum(vec[rows])` term, and either return the fresh
result or scatter-add it into `out` at positions `cols`. -/
def StdMat.transposeMatvec (S : StdMat) (v : List ℚ) (rows? cols? : Option (List ℕ))
    (out? : Option (List ℚ)) : List ℚ :=
  let rows := rows?.getD (List.range S.nrows)
  let cols := cols?.getD (List.range S.ncols)
  let res0 := cols.map (fun j => refTransposeMatvec S.inner rows v j)
  let res1 := match S.mult with
    | none => res0
    | some m => List.zipWith (· * ·) (cols.map (fun j => m.getD j 0)) res0
  let otherSum := (rows.map (fun r => v.getD r 0)).sum
  let res2 := List.zipWith (· + ·) res1 (cols.map (fun j => S.shift.getD j 0 * otherSum))
  match out? with
  | none => res2
  | some o => (List.range o.length).map
      (fun c => o.getD c 0 + if c ∈ cols then res2.getD (cols.indexOf c) 0 else 0)

/-- `StandardizedMatrix.astype` (standardized_mat.py:276-281): the
result is constructed from the cast inner matrix and the cast shift
only; the constructor's `mult` argument is omitted, so it defaults to
`None`.  Casting is value-preserving in the exact-arithmetic model. -/
def StdMat.astype (S : StdMat) : StdMat :=
  ⟨S.inner, S.nrows, S.shift, none⟩

/-- Element of a replicated list (default equals the element). -/
theorem getD_replicate {α : Type} (n r : ℕ) (d : α) :
    (List.replicate n d).getD r d = d := by
  rcases lt_or_le r n with h | h
  · rw [List.getD_eq_getElem _ _ (by simpa using h)]
    simp
  · rw [List.getD_eq_default _ _ (by simpa using h)]

/-- Element of a zipWith (in-bounds). -/
theorem getD_zipWith {α : Type} (f : α → α → α) (a b : List α) (j : ℕ) (d : α)
    (h1 : j < a.length) (h2 : j < b.length) :
    (List.zipWith f a b).getD j d = f (a.getD j d) (b.getD j d) := by
  rw [List.getD_eq_getElem _ _ (by simp [List.length_zipWith]; omega),
    List.getD_eq_getElem _ _ h1, List.getD_eq_getElem _ _ h2]
  simp [List.getElem_zipWith]

/-- Out-of-range `getD` is the default. -/
theorem getD_of_le {α : Type} (l : List α) (j : ℕ) (d : α) (h : l.length ≤ j) :
    l.getD j d = d :=
  List.getD_eq_default _ _ h

/-- C2: for every StandardizedMatrix, conforming 1-D operand and
optional column subset, `matvec` computes the entrywise-affine product:
entry `i` of the result is the sum over the selected columns `j` of
`(mult[j] * inner[i, j] + shift[j]) * v[j]`, i.e. the standardized
matrix entry `toarrayEntry i j` times `v[j]`, without materializing the
standardized matrix. -/
theorem std_matvec_entrywise (S : StdMat) (v : List ℚ) (cols? : Option (List ℕ))
    (hv : v.length = S.ncols)
    (hm : ∀ m ∈ S.mult, m.length = S.ncols)
    (i : ℕ) (hi : i < S.nrows) :
    (S.matvec v cols? none).getD i 0
      = ((cols?.getD (List.range S.ncols)).map
          (fun j => S.toarrayEntry i j * v.getD j 0)).sum := by
  simp only [StdMat.matvec, List.map_map]
  rw [getD_map_range _ _ _ (by simpa using hi)]
  simp only [Function.comp, Option.getD_none, getD_replicate, zero_add]
  rw [refMatvec, ← List.sum_map_add]
  congr 1
  refine List.map_congr_left (fun j _ => ?_)
  have hentry0 : S.ncols ≤ j → denseEntry S.inner i j = 0 := by
    intro hj
    rw [denseEntry, getD_of_le _ _ _ (by simpa [StdMat.ncols] using hj)]
    rfl
  have hv0 : S.ncols ≤ j → v.getD j 0 = 0 := by
    intro hj
    exact getD_of_le _ _ _ (by omega)
  cases hmu : S.mult with
  | none =>
      simp only [StdMat.toarrayEntry, hmu]
      ring
  | some m =>
      have hml : m.length = S.ncols := hm m (by simp [hmu])
      simp only [StdMat.toarrayEntry, hmu]
      rcases lt_or_le j S.ncols with hj | hj
      · rw [getD_zipWith _ _ _ _ _ (by omega) (by omega)]
        ring
      · rw [hentry0 hj, hv0 hj, getD_of_le _ _ _ (by simp [List.length_zipWith]; omega)]
        ring

/-- Concrete StandardizedMatrix for the C2 witness: one row, two
columns, inner entries 3 and 4, shift [5, 6], mult [2, 3]. -/
def stdWitnessMat : StdMat := ⟨[[3], [4]], 1, [5, 6], some [2, 3]⟩

/-- C2 witness: on the concrete matrix, `matvec [7, 8]` with no column
restriction returns `(2*3+5)*7 + (3*4+6)*8 = 221`. -/
theorem std_matvec_entrywise_witness :
    (([7, 8] : List ℚ).length = stdWitnessMat.ncols
        ∧ (∀ m ∈ stdWitnessMat.mult, m.length = stdWitnessMat.ncols)
        ∧ (0 : ℕ) < stdWitnessMat.nrows)
      ∧ (stdWitnessMat.matvec [7, 8] none none).getD 0 0
          = ((List.range stdWitnessMat.ncols).map
              (fun j => stdWitnessMat.toarrayEntry 0 j * ([7, 8] : List ℚ).getD j 0)).sum
      ∧ (stdWitnessMat.matvec [7, 8] none none).getD 0 0 = 221 := by
  refine ⟨⟨by decide, ?_, by decide⟩, ?_, ?_⟩
  · intro m hm
    cases hm
    decide
  · have h := std_matvec_entrywise stdWitnessMat [7, 8] none (by decide)
      (by intro m hm; cases hm; decide) 0 (by decide)
    simpa using h
  · norm_num [StdMat.matvec, stdWitnessMat, StdMat.ncols, refMatvec, denseEntry, colEntry,
      List.range_succ]

/-- Concrete StandardizedMatrix demonstrating the `astype` bug: a 1x1
inner matrix with entry 1, shift 0 and mult 2. -/
def stdAstypeMat : StdMat := ⟨[[1]], 1, [0], some [2]⟩

/-- C4: `StandardizedMatrix.astype` is NOT an affine pass-through when
`mult` is not `None`: the constructor call at standardized_mat.py:278-281
omits `mult`, so the cast matrix silently loses the column scaling.  On
the concrete input the represented entry is `2 * 1 + 0 = 2` but the
entry after `astype` is `1 * 1 + 0 = 1`.  This contradicts the method's
own contract (cast of the same matrix) and the spec's affine
pass-through clause. -/
theorem std_astype_drops_mult :
    stdAstypeMat.astype.toarrayEntry 0 0 = 1
      ∧ stdAstypeMat.toarrayEntry 0 0 = 2
      ∧ stdAstypeMat.astype.toarrayEntry 0 0 ≠ stdAstypeMat.toarrayEntry 0 0 := by
  norm_num [StdMat.astype, StdMat.toarrayEntry, stdAstypeMat, denseEntry, colEntry]

/-!
### SplitMatrix (src/src/quantcore/matrix/split_matrix.py)

Sub-matrices (DenseMatrix / SparseMatrix / CategoricalMatrix peers) are
modelled by their dense-equivalent column lists plus a storage kind and
dtype tag; their own `sandwich`, `cross_sandwich`, `matvec` and
`transpose_matvec` kernels are external to the sources under
verification and are modelled from the spec as reference restricted
products (a categorical peer's `sandwich` returns a diagonal-only
`dia_matrix`).
-/

/-- Storage kind of a split-matrix component. -/
inductive MatKind where
  | dense
  | sparse
  | cat
deriving DecidableEq, Repr

/-- A sub-matrix of a SplitMatrix: storage kind, row count,
dense-equivalent columns and dtype. -/
structure SubMat where
  kind : MatKind
  nrows : ℕ
  cols : List Col
  dtype : Dtype
deriving DecidableEq

instance : Inhabited SubMat := ⟨⟨.dense, 0, [], .f64⟩⟩

/-- Number of columns of a sub-matrix. -/
def SubMat.ncols (m : SubMat) : ℕ := m.cols.length

/-- Dense-equivalent entry `(r, j)` of a sub-matrix. -/
def SubMat.entry (m : SubMat) (r j : ℕ) : ℚ := colEntry (m.cols.getD j []) r

/-- The `set_up_rows_or_cols` helper, modelled from the spec: a `None`
restriction means all indices `0..n-1`. -/
def effSel (sel? : Option (List ℕ)) (n : ℕ) : List ℕ := sel?.getD (List.range n)

/-- Weighted product sum over a row list:
`sum over r in rs of d[r] * f r * g r`. -/
def wsum (d : List ℚ) (rs : List ℕ) (f g : ℕ → ℚ) : ℚ :=
  (rs.map (fun r => d.getD r 0 * f r * g r)).sum

/-- Modelled from the spec: entry `(a, b)` of a sub-matrix's restricted
`sandwich(d, rows, cols)`, the reference product
`(X[rows][:, cols]).T @ diag(d[rows]) @ X[rows][:, cols]`. -/
def SubMat.sandwichEntry (m : SubMat) (d : List ℚ) (rows? lc? : Option (List ℕ))
    (a b : ℕ) : ℚ :=
  let lc := effSel lc? m.ncols
  wsum d (effSel rows? m.nrows)
    (fun r => m.entry r (lc.getD a 0)) (fun r => m.entry r (lc.getD b 0))

/-- Result of a sub-matrix sandwich: a full block, or the diagonal-only
`sps.dia_matrix` form returned by categorical peers
(handled at split_matrix.py:257-258). -/
inductive SandRes where
  | full (f : ℕ → ℕ → ℚ)
  | dia (g : ℕ → ℚ)

/-- Modelled from the spec: the sub-matrix `sandwich` dispatch; a
categorical peer returns its sandwich in diagonal-only form, other
peers return the full block. -/
def SubMat.sandwichRes (m : SubMat) (d : List ℚ) (rows? lc? : Option (List ℕ)) :
    SandRes :=
  if m.kind = .cat then .dia (fun a => m.sandwichEntry d rows? lc? a a)
  else .full (fun a b => m.sandwichEntry d rows? lc? a b)

/-- Modelled from the spec: the pairwise `cross_sandwich` reference
`L[rows][:, lci].T @ diag(d[rows]) @ R[rows][:, lcj]` between two
sub-matrices. -/
def crossSandwichEntry (mi mj : SubMat) (d : List ℚ) (rows? : Option (List ℕ))
    (lci? lcj? : Option (List ℕ)) (a b : ℕ) : ℚ :=
  let lci := effSel lci? mi.ncols
  let lcj := effSel lcj? mj.ncols
  wsum d (effSel rows? mi.nrows)
    (fun r => mi.entry r (lci.getD a 0)) (fun r => mj.entry r (lcj.getD b 0))

/-- The state of a SplitMatrix after construction: shape, dtype
(adopted from the first sub-matrix), sub-matrices and their global
column-index lists. -/
structure SplitMat where
  nrows : ℕ
  ncols : ℕ
  dtype : Dtype
  mats : List SubMat
  indices : List (List ℕ)
deriving DecidableEq

/-- Post-construction invariants of a SplitMatrix
(split_matrix.py:115-182): as many index lists as sub-matrices, a
shared row count, index lists as long as each sub-matrix is wide, and
the concatenated indices a permutation of `0..ncols-1`. -/
def SplitMat.valid (S : SplitMat) : Prop :=
  S.mats.length = S.indices.length
    ∧ (∀ m ∈ S.mats, m.nrows = S.nrows)
    ∧ (∀ p ∈ S.mats.zip S.indices, p.2.length = p.1.ncols)
    ∧ S.indices.flatten.Perm (List.range S.ncols)
    ∧ (∀ m ∈ S.mats, ∀ cl ∈ m.cols, cl.length = m.nrows)

instance (S : SplitMat) : Decidable S.valid := by
  unfold SplitMat.valid
  infer_instance

/-- Local column positions of one sub-matrix selected by a global
column-subset request (part (a) of the column-restriction helper,
`ext.split.split_col_subsets`, modelled from the spec and from the
documented contract at split_matrix.py:194-198). -/
def subsetCols (idx : List ℕ) (cs : List ℕ) : List ℕ :=
  (List.range idx.length).filter (fun p => idx.getD p 0 ∈ cs)

/-- Output-slot positions those selected columns occupy in the combined
result (part (b) of the column-restriction helper). -/
def subsetColsIndices (idx : List ℕ) (cs : List ℕ) : List ℕ :=
  (subsetCols idx cs).map (fun p => cs.indexOf (idx.getD p 0))

/-- `SplitMatrix._split_col_subsets` (split_matrix.py:184-206): with no
request, the output slots are the sub-matrices' own index lists and no
sub-matrix is column-restricted; otherwise the spec-modelled helper
computes, per sub-matrix, the local positions and their output slots. -/
def SplitMat.splitColSubsets (S : SplitMat) (cols? : Option (List ℕ)) :
    List (List ℕ) × List (Option (List ℕ)) × ℕ :=
  match cols? with
  | none => (S.indices, S.indices.map (fun _ => none), S.ncols)
  | some cs =>
      (S.indices.map (fun idx => subsetColsIndices idx cs),
       S.indices.map (fun idx => some (subsetCols idx cs)),
       cs.length)

/-- `out[np.ix_(I, J)] = F`: fancy-indexed block assignment into a
two-dimensional accumulator (index lists assumed duplicate-free, as the
code notes). -/
def scFull (out : ℕ → ℕ → ℚ) (I J : List ℕ) (f : ℕ → ℕ → ℚ) : ℕ → ℕ → ℚ :=
  fun a b => if a ∈ I ∧ b ∈ J then f (I.indexOf a) (J.indexOf b) else out a b

/-- `out[(I, I)] += g`: fancy-indexed diagonal accumulation. -/
def scDiaAdd (out : ℕ → ℕ → ℚ) (I : List ℕ) (g : ℕ → ℚ) : ℕ → ℕ → ℚ :=
  fun a b => if a = b ∧ a ∈ I then out a b + g (I.indexOf a) else out a b

/-- The diagonal-block write of iteration `i` of
`SplitMatrix.sandwich` (split_matrix.py:254-260). -/
def diagWrite (S : SplitMat) (d : List ℚ) (rows? : Option (List ℕ))
    (sci : List (List ℕ)) (sc : List (Option (List ℕ))) (i : ℕ)
    (out : ℕ → ℕ → ℚ) : ℕ → ℕ → ℚ :=
  match (S.mats.getD i default).sandwichRes d rows? (sc.getD i none) with
  | .dia g => scDiaAdd out (sci.getD i []) g
  | .full f => scFull out (sci.getD i []) (sci.getD i []) f

/-- The off-diagonal pair write for sub-matrices `i < j`
(split_matrix.py:262-270): the cross block and its transpose are
written into the two symmetric positions. -/
def crossWrite (S : SplitMat) (d : List ℚ) (rows? : Option (List ℕ))
    (sci : List (List ℕ)) (sc : List (Option (List ℕ))) (i j : ℕ)
    (out : ℕ → ℕ → ℚ) : ℕ → ℕ → ℚ :=
  let f := crossSandwichEntry (S.mats.getD i default) (S.mats.getD j default)
    d rows? (sc.getD i none) (sc.getD j none)
  scFull (scFull out (sci.getD i []) (sci.getD j []) f)
    (sci.getD j []) (sci.getD i []) (fun a b => f b a)

/-- The inner `for j in range(i+1, ...)` loop of
`SplitMatrix.sandwich`, as structural recursion on the remaining trip
count (`j` is the next value of the loop variable). -/
def crossLoop (S : SplitMat) (d : List ℚ) (rows? : Option (List ℕ))
    (sci : List (List ℕ)) (sc : List (Option (List ℕ))) (i : ℕ) :
    ℕ → ℕ → (ℕ → ℕ → ℚ) → ℕ → ℕ → ℚ
  | _, 0, out => out
  | j, t + 1, out =>
      crossLoop S d rows? sci sc i (j + 1) t (crossWrite S d rows? sci sc i j out)

/-- The outer `for i in range(len(self.indices))` loop of
`SplitMatrix.sandwich`. -/
def outerLoop (S : SplitMat) (d : List ℚ) (rows? : Option (List ℕ))
    (sci : List (List ℕ)) (sc : List (Option (List ℕ))) :
    ℕ → ℕ → (ℕ → ℕ → ℚ) → ℕ → ℕ → ℚ
  | _, 0, out => out
  | i, t + 1, out =>
      outerLoop S d rows? sci sc (i + 1) t
        (crossLoop S d rows? sci sc i (i + 1) (S.indices.length - (i + 1))
          (diagWrite S d rows? sci sc i out))

/-- `SplitMatrix.sandwich(d, rows, cols)` (split_matrix.py:239-272):
split the column request over the sub-matrices, start from a zero
accumulator, then write every diagonal block and every symmetric
off-diagonal cross block. -/
def SplitMat.sandwichFun (S : SplitMat) (d : List ℚ) (rows? cols? : Option (List ℕ)) :
    ℕ → ℕ → ℚ :=
  let sci := (S.splitColSubsets cols?).1
  let sc := (S.splitColSubsets cols?).2.1
  outerLoop S d rows? sci sc 0 S.indices.length (fun _ _ => 0)

/-- One `out[:, idx] = mat.A` assignment of `SplitMatrix.toarray`. -/
def toarrayStep (acc : ℕ → ℕ → ℚ) (p : SubMat × List ℕ) : ℕ → ℕ → ℚ :=
  fun r c => if c ∈ p.2 then p.1.entry r (p.2.indexOf c) else acc r c

/-- `SplitMatrix.toarray` (split_matrix.py:222-227): successively
assign `out[:, idx] = mat.A` for every component. -/
def SplitMat.toarrayFun (S : SplitMat) : ℕ → ℕ → ℚ :=
  (S.mats.zip S.indices).foldl toarrayStep (fun _ _ => 0)

/-- `SplitMatrix.getcol(i)` (split_matrix.py:229-237): wrap the index
modulo `ncols` (Python `%` semantics on a nonnegative modulus match
`Int.emod`), then return the owning sub-matrix's column, or `none` for
the `Column not found` error branch. -/
def SplitMat.getcol (S : SplitMat) (i : ℤ) : Option Col :=
  let iw : ℕ := (i.emod S.ncols).toNat
  match (S.mats.zip S.indices).find? (fun p => iw ∈ p.2) with
  | some p => some (p.1.cols.getD (p.2.indexOf iw) [])
  | none => none

/-- C10: on a validly constructed SplitMatrix, `getcol` always finds an
owning sub-matrix for every index `i` with `-ncols <= i < ncols` after
wrapping modulo `ncols`; the `Column N was not found` RuntimeError
branch (split_matrix.py:237) is unreachable. -/
theorem split_getcol_total (S : SplitMat) (hval : S.valid) (i : ℤ)
    (hlo : -(S.ncols : ℤ) ≤ i) (hhi : i < (S.ncols : ℤ)) :
    (S.getcol i).isSome = true := by
  obtain ⟨hlen, -, -, hperm, -⟩ := hval
  have hn : 0 < (S.ncols : ℤ) := by omega
  have hmodlo : 0 ≤ i.emod (S.ncols : ℤ) := Int.emod_nonneg i (by omega)
  have hmodhi : i.emod (S.ncols : ℤ) < (S.ncols : ℤ) := Int.emod_lt_of_pos i hn
  have hiw : (i.emod (S.ncols : ℤ)).toNat < S.ncols := by omega
  have hflat : (i.emod (S.ncols : ℤ)).toNat ∈ S.indices.flatten :=
    hperm.mem_iff.mpr (List.mem_range.mpr hiw)
  obtain ⟨idx, hidxmem, hin⟩ := List.mem_flatten.mp hflat
  obtain ⟨k, hk, hkeq⟩ := List.mem_iff_getElem.mp hidxmem
  have hkm : k < S.mats.length := by omega
  have hkz : k < (S.mats.zip S.indices).length := by
    simp [List.length_zip]
    omega
  have hpair : (S.mats[k], S.indices[k]) ∈ S.mats.zip S.indices := by
    have hz : (S.mats.zip S.indices)[k] = (S.mats[k], S.indices[k]) := by
      simp [List.getElem_zip]
    exact hz ▸ List.getElem_mem hkz
  have hfound : ((S.mats.zip S.indices).find?
      (fun p => decide ((i.emod (S.ncols : ℤ)).toNat ∈ p.2))).isSome = true := by
    rw [List.find?_isSome]
    refine ⟨(S.mats[k], S.indices[k]), hpair, ?_⟩
    simpa using hkeq ▸ hin
  simp only [SplitMat.getcol]
  obtain ⟨p, hp⟩ := Option.isSome_iff_exists.mp hfound
  rw [hp]
  rfl

/-- Concrete two-component SplitMatrix: column 0 held by a dense
sub-matrix, column 1 by a sparse one (the spec's concrete scenario,
columns of `[[0,0],[0,-1],[0,2]]`). -/
def splitWitness : SplitMat :=
  ⟨3, 2, .f64,
   [⟨.dense, 3, [[0, 0, 0]], .f64⟩, ⟨.sparse, 3, [[0, -1, 2]], .f64⟩],
   [[0], [1]]⟩

/-- C10 witness: the concrete SplitMatrix is valid and `getcol (-1)`
succeeds. -/
theorem split_getcol_total_witness :
    (splitWitness.valid ∧ -((splitWitness.ncols : ℕ) : ℤ) ≤ (-1 : ℤ)
        ∧ (-1 : ℤ) < ((splitWitness.ncols : ℕ) : ℤ))
      ∧ (splitWitness.getcol (-1)).isSome = true :=
  ⟨⟨by decide, by decide, by decide⟩,
   split_getcol_total splitWitness (by decide) (-1) (by decide) (by decide)⟩

/-- The dtype of the output buffer allocated by `SplitMatrix.sandwich`
(`np.zeros((n_cols, n_cols))` at split_matrix.py:252): numpy's default
float64, independent of the instance dtype and of the operands. -/
def SplitMat.sandwichOutDtype (_S : SplitMat) : Dtype := .f64

/-- The output dtype of `SplitMatrix.matvec`
(`np.result_type(self.dtype, v.dtype)` at split_matrix.py:303). -/
def SplitMat.matvecOutDtype (S : SplitMat) (vdt : Dtype) : Dtype :=
  resultType S.dtype vdt

/-- The output dtype of `SplitMatrix.transpose_matvec`
(`np.result_type(self.dtype, v.dtype)` at split_matrix.py:333). -/
def SplitMat.transposeMatvecOutDtype (S : SplitMat) (vdt : Dtype) : Dtype :=
  resultType S.dtype vdt

/-- C9: on every SplitMatrix of any dtype, `sandwich` allocates (and
returns) a float64 array, while `matvec` and `transpose_matvec` use the
promotion of instance dtype and operand dtype; in particular a float32
matrix with a float32 operand produces float32 matvec output but still
float64 sandwich output. -/
theorem split_sandwich_dtype_f64 (S : SplitMat) (vdt : Dtype) :
    S.sandwichOutDtype = .f64
      ∧ S.matvecOutDtype vdt = resultType S.dtype vdt
      ∧ S.transposeMatvecOutDtype vdt = resultType S.dtype vdt
      ∧ (S.dtype = .f32 → vdt = .f32 →
          S.matvecOutDtype vdt = .f32 ∧ S.matvecOutDtype vdt ≠ S.sandwichOutDtype) := by
  refine ⟨rfl, rfl, rfl, fun h32 hv32 => ?_⟩
  rw [SplitMat.matvecOutDtype, SplitMat.sandwichOutDtype, h32, hv32]
  exact ⟨rfl, by decide⟩

/-- A float32 copy of the concrete SplitMatrix. -/
def splitWitness32 : SplitMat :=
  ⟨3, 2, .f32,
   [⟨.dense, 3, [[0, 0, 0]], .f32⟩, ⟨.sparse, 3, [[0, -1, 2]], .f32⟩],
   [[0], [1]]⟩

/-- C9 witness: instantiated on the float32 SplitMatrix with a float32
operand. -/
theorem split_sandwich_dtype_f64_witness :
    splitWitness32.sandwichOutDtype = .f64
      ∧ splitWitness32.matvecOutDtype .f32 = resultType splitWitness32.dtype .f32
      ∧ splitWitness32.transposeMatvecOutDtype .f32 = resultType splitWitness32.dtype .f32
      ∧ splitWitness32.matvecOutDtype .f32 = .f32
      ∧ splitWitness32.matvecOutDtype .f32 ≠ splitWitness32.sandwichOutDtype :=
  ⟨(split_sandwich_dtype_f64 splitWitness32 .f32).1,
   (split_sandwich_dtype_f64 splitWitness32 .f32).2.1,
   (split_sandwich_dtype_f64 splitWitness32 .f32).2.2.1,
   ((split_sandwich_dtype_f64 splitWitness32 .f32).2.2.2 rfl rfl).1,
   ((split_sandwich_dtype_f64 splitWitness32 .f32).2.2.2 rfl rfl).2⟩

/-!
### Infrastructure for the SplitMatrix sandwich correctness proof
-/

/-- `getD` at the index of a member returns the member. -/
theorem getD_indexOf {l : List ℕ} {c : ℕ} (h : c ∈ l) (d : ℕ) :
    l.getD (l.indexOf c) d = c := by
  rw [List.getD_eq_getElem _ _ (List.indexOf_lt_length.mpr h)]
  exact List.getElem_indexOf _

/-- On a duplicate-free list, `indexOf` inverts `getElem`. -/
theorem indexOf_getElem_of_nodup {l : List ℕ} (hnd : l.Nodup) (a : ℕ)
    (ha : a < l.length) : l.indexOf l[a] = a := by
  have hmem : l[a] ∈ l := List.getElem_mem ha
  have h1 : l.indexOf l[a] < l.length := List.indexOf_lt_length.mpr hmem
  have h2 : l[l.indexOf l[a]] = l[a] := List.getElem_indexOf h1
  exact (List.Nodup.getElem_inj_iff hnd).mp h2

/-- `indexOf` commutes with mapping an injective-on-the-list function. -/
theorem indexOf_map_injOn {l : List ℕ} {f : ℕ → ℕ}
    (hinj : ∀ x ∈ l, ∀ y ∈ l, f x = f y → x = y) {x : ℕ} (hx : x ∈ l) :
    (l.map f).indexOf (f x) = l.indexOf x := by
  induction l with
  | nil => cases hx
  | cons q rest ih =>
      rcases List.mem_cons.mp hx with rfl | hx2
      · simp
      · by_cases hq : x = q
        · subst hq
          simp
        · have hfq : f q ≠ f x := fun he => hq (hinj x hx q (by simp) he.symm)
          rw [List.map_cons, List.indexOf_cons_ne _ hfq,
            List.indexOf_cons_ne _ (fun he => hq he.symm)]
          have hinj2 : ∀ y ∈ rest, ∀ z ∈ rest, f y = f z → y = z :=
            fun y hy z hz => hinj y (List.mem_cons_of_mem _ hy) z (List.mem_cons_of_mem _ hz)
          rw [ih hinj2 hx2]

/-- A fold of toarray assignments leaves a column untouched by every
component unchanged. -/
theorem foldl_toarrayStep_frame :
    ∀ (l : List (SubMat × List ℕ)) (init : ℕ → ℕ → ℚ) (r c : ℕ),
      (∀ p ∈ l, c ∉ p.2) → l.foldl toarrayStep init r c = init r c := by
  intro l
  induction l with
  | nil => intro init r c _; rfl
  | cons p rest ih =>
      intro init r c h
      rw [List.foldl_cons, ih _ r c (fun q hq => h q (List.mem_cons_of_mem _ hq))]
      simp [toarrayStep, h p (List.mem_cons_self p rest)]

/-- A fold of toarray assignments at a column owned by component `k`
and by no later component yields component `k`'s entry. -/
theorem foldl_toarrayStep_at :
    ∀ (l : List (SubMat × List ℕ)) (init : ℕ → ℕ → ℚ) (r c k : ℕ)
      (hk : k < l.length), c ∈ l[k].2 →
      (∀ k2 (h2 : k2 < l.length), k < k2 → c ∉ l[k2].2) →
      l.foldl toarrayStep init r c = l[k].1.entry r (l[k].2.indexOf c) := by
  intro l
  induction l with
  | nil => intro _ _ _ k hk; exact absurd hk (by simp)
  | cons p rest ih =>
      intro init r c k hk hmem hlater
      rw [List.foldl_cons]
      cases k with
      | zero =>
          have hrest : ∀ q ∈ rest, c ∉ q.2 := by
            intro q hq
            obtain ⟨k2, hk2, hq2⟩ := List.mem_iff_getElem.mp hq
            have : k2 + 1 < (p :: rest).length := by simp; omega
            have := hlater (k2 + 1) this (by omega)
            simpa [hq2] using this
          rw [foldl_toarrayStep_frame rest _ r c hrest]
          have hmem0 : c ∈ p.2 := by simpa using hmem
          simp [toarrayStep, hmem0]
      | succ k0 =>
          have hk0 : k0 < rest.length := by simpa using hk
          refine ih _ r c k0 hk0 (by simpa using hmem) ?_
          intro k2 h2 hgt
          have : k2 + 1 < (p :: rest).length := by simp; omega
          have := hlater (k2 + 1) this (by omega)
          simpa using this

/-- The component owning global column `c`
(`for mat, idx in zip(...): if i in idx` dispatch order). -/
def SplitMat.own (S : SplitMat) (c : ℕ) : ℕ :=
  S.indices.findIdx (fun idx => decide (c ∈ idx))

/-- On a valid SplitMatrix the concatenated indices are duplicate-free
and pairwise disjoint. -/
theorem valid_indices_disjoint (S : SplitMat) (hval : S.valid) :
    (∀ l ∈ S.indices, l.Nodup) ∧ List.Pairwise List.Disjoint S.indices := by
  obtain ⟨-, -, -, hperm, -⟩ := hval
  exact List.nodup_flatten.mp (hperm.nodup_iff.mpr (List.nodup_range _))

/-- The owner of a valid global column exists, is in range and holds
the column. -/
theorem own_spec (S : SplitMat) (hval : S.valid) (c : ℕ) (hc : c < S.ncols) :
    S.own c < S.indices.length ∧ c ∈ S.indices.getD (S.own c) [] := by
  obtain ⟨-, -, -, hperm, -⟩ := hval
  have hflat : c ∈ S.indices.flatten := hperm.mem_iff.mpr (List.mem_range.mpr hc)
  obtain ⟨idx, hidxmem, hin⟩ := List.mem_flatten.mp hflat
  have hex : ∃ l ∈ S.indices, (fun idx => decide (c ∈ idx)) l = true := ⟨idx, hidxmem, by simpa using hin⟩
  have hlt : S.own c < S.indices.length := List.findIdx_lt_length_of_exists hex
  refine ⟨hlt, ?_⟩
  have := @List.findIdx_getElem _ (fun idx => decide (c ∈ idx)) S.indices hlt
  rw [List.getD_eq_getElem _ _ hlt]
  simpa [SplitMat.own] using this

/-- No component other than the owner holds a valid global column. -/
theorem own_unique (S : SplitMat) (hval : S.valid) (c : ℕ) (hc : c < S.ncols)
    (k : ℕ) (hk : k < S.indices.length) (hmem : c ∈ S.indices.getD k []) :
    k = S.own c := by
  obtain ⟨hown_lt, hown_mem⟩ := own_spec S hval c hc
  obtain ⟨-, hdisj⟩ := valid_indices_disjoint S hval
  by_contra hne
  rcases Nat.lt_or_ge k (S.own c) with hlt | hge
  · have := List.pairwise_iff_getElem.mp hdisj k (S.own c) hk hown_lt hlt
    rw [List.getD_eq_getElem _ _ hk] at hmem
    rw [List.getD_eq_getElem _ _ hown_lt] at hown_mem
    exact this hmem hown_mem
  · have hlt2 : S.own c < k := by omega
    have := List.pairwise_iff_getElem.mp hdisj (S.own c) k hown_lt hk hlt2
    rw [List.getD_eq_getElem _ _ hk] at hmem
    rw [List.getD_eq_getElem _ _ hown_lt] at hown_mem
    exact this hown_mem hmem

/-- Characterization of `SplitMatrix.toarray`: at a valid global
column, the array holds the owning component's entry at the local
position of that column. -/
theorem toarray_char (S : SplitMat) (hval : S.valid) (c : ℕ) (hc : c < S.ncols) (r : ℕ) :
    S.toarrayFun r c
      = (S.mats.getD (S.own c) default).entry r
          ((S.indices.getD (S.own c) []).indexOf c) := by
  have hlen := hval.1
  obtain ⟨hown_lt, hown_mem⟩ := own_spec S hval c hc
  have hkz : S.own c < (S.mats.zip S.indices).length := by
    simp [List.length_zip]
    omega
  have hmemz : c ∈ ((S.mats.zip S.indices)[S.own c]).2 := by
    simp only [List.getElem_zip]
    rw [List.getD_eq_getElem _ _ hown_lt] at hown_mem
    exact hown_mem
  have hlater : ∀ k2 (h2 : k2 < (S.mats.zip S.indices).length),
      S.own c < k2 → c ∉ ((S.mats.zip S.indices)[k2]).2 := by
    intro k2 h2 hgt hmem2
    have hk2 : k2 < S.indices.length := by
      simp [List.length_zip] at h2
      omega
    have : c ∈ S.indices.getD k2 [] := by
      rw [List.getD_eq_getElem _ _ hk2]
      simpa [List.getElem_zip] using hmem2
    have := own_unique S hval c hc k2 hk2 this
    omega
  rw [SplitMat.toarrayFun, foldl_toarrayStep_at _ _ r c (S.own c) hkz hmemz hlater]
  simp only [List.getElem_zip]
  rw [List.getD_eq_getElem _ _ (by omega : S.own c < S.mats.length),
    List.getD_eq_getElem _ _ hown_lt]

/-- A member's `getD` value is a member. -/
theorem getD_mem {l : List ℕ} {a : ℕ} (ha : a < l.length) : l.getD a 0 ∈ l := by
  rw [List.getD_eq_getElem _ _ ha]
  exact List.getElem_mem ha

/-- `getD` through `map` below the length. -/
theorem getD_map_lt {α β : Type} (f : α → β) (l : List α) (i : ℕ) (h : i < l.length)
    (d : β) : (l.map f).getD i d = f l[i] := by
  rw [List.getD_eq_getElem _ _ (by simpa using h)]
  simp

/-- The contract of the column-restriction data handed to the sandwich
loops: per component `i`, `sci` holds the output slots of the requested
columns owned by component `i`, and `sc` the matching local column
restriction, so that selected local columns line up with output slots
(the documented contract of `_split_col_subsets`,
split_matrix.py:194-198). -/
def SubsetOK (S : SplitMat) (cv : List ℕ) (sci : List (List ℕ))
    (sc : List (Option (List ℕ))) : Prop :=
  sci.length = S.indices.length
    ∧ (∀ i, i < S.indices.length → ∀ a : ℕ,
        (a ∈ sci.getD i [] ↔ a < cv.length ∧ cv.getD a 0 ∈ S.indices.getD i []))
    ∧ (∀ i, i < S.indices.length → ∀ a ∈ sci.getD i [],
        (effSel (sc.getD i none) (S.mats.getD i default).ncols).getD
            ((sci.getD i []).indexOf a) 0
          = (S.indices.getD i []).indexOf (cv.getD a 0))

/-- Index lists are as long as their sub-matrices are wide. -/
theorem valid_idx_length (S : SplitMat) (hval : S.valid) (i : ℕ)
    (hi : i < S.indices.length) :
    (S.indices.getD i []).length = (S.mats.getD i default).ncols := by
  have hlen := hval.1
  have hpair := hval.2.2.1
  have him : i < S.mats.length := by omega
  have hz : i < (S.mats.zip S.indices).length := by
    simp [List.length_zip]
    omega
  have hmem : (S.mats[i], S.indices[i]) ∈ S.mats.zip S.indices := by
    have : (S.mats.zip S.indices)[i] = (S.mats[i], S.indices[i]) := by
      simp [List.getElem_zip]
    exact this ▸ List.getElem_mem hz
  have := hpair _ hmem
  rw [List.getD_eq_getElem _ _ hi, List.getD_eq_getElem _ _ him]
  exact this

/-- With no column request, `_split_col_subsets` satisfies the
contract at the full column range. -/
theorem subsetOK_none (S : SplitMat) (hval : S.valid) :
    SubsetOK S (List.range S.ncols) S.indices (S.indices.map (fun _ => none)) := by
  have hperm := hval.2.2.2.1
  refine ⟨rfl, ?_, ?_⟩
  · intro i hi a
    have hidx : S.indices.getD i [] = S.indices[i] := List.getD_eq_getElem _ _ hi
    constructor
    · intro ha
      have hflat : a ∈ S.indices.flatten :=
        List.mem_flatten.mpr ⟨S.indices[i], List.getElem_mem hi, hidx ▸ ha⟩
      have harange : a ∈ List.range S.ncols := hperm.mem_iff.mp hflat
      have halt : a < S.ncols := List.mem_range.mp harange
      refine ⟨by simpa using halt, ?_⟩
      rw [List.getD_eq_getElem (List.range S.ncols) 0 (by simpa using halt)]
      simpa using ha
    · rintro ⟨ha, hmem⟩
      have halt : a < S.ncols := by simpa using ha
      rw [List.getD_eq_getElem (List.range S.ncols) 0 (by simpa using halt)] at hmem
      simpa using hmem
  · intro i hi a ha
    have hscnone : (S.indices.map (fun _ => (none : Option (List ℕ)))).getD i none = none := by
      rw [getD_map_lt _ _ _ hi]
    rw [hscnone]
    have halen : (S.indices.getD i []).indexOf a < (S.mats.getD i default).ncols := by
      rw [← valid_idx_length S hval i hi]
      exact List.indexOf_lt_length.mpr ha
    have hamem : a < S.ncols := by
      have hidx : S.indices.getD i [] = S.indices[i] := List.getD_eq_getElem _ _ hi
      have hflat : a ∈ S.indices.flatten :=
        List.mem_flatten.mpr ⟨S.indices[i], List.getElem_mem hi, hidx ▸ ha⟩
      exact List.mem_range.mp (hperm.mem_iff.mp hflat)
    have hcv : (List.range S.ncols).getD a 0 = a := by
      rw [List.getD_eq_getElem _ _ (by simpa using hamem)]
      simp
    rw [hcv, effSel, Option.getD_none, List.getD_eq_getElem _ _ (by simpa using halen)]
    simp

/-- With a requested column subset, the spec-modelled
`split_col_subsets` outputs satisfy the contract. -/
theorem subsetOK_some (S : SplitMat) (hval : S.valid) (cs : List ℕ)
    (hnd : cs.Nodup) :
    SubsetOK S cs (S.indices.map (fun idx => subsetColsIndices idx cs))
      (S.indices.map (fun idx => some (subsetCols idx cs))) := by
  obtain ⟨hnodup_parts, -⟩ := valid_indices_disjoint S hval
  refine ⟨by simp, ?_, ?_⟩
  · intro i hi a
    rw [getD_map_lt _ _ _ hi]
    have hidx : S.indices.getD i [] = S.indices[i] := List.getD_eq_getElem _ _ hi
    rw [hidx]
    constructor
    · intro ha
      obtain ⟨p, hp, hpa⟩ := List.mem_map.mp ha
      have hp2 := List.mem_filter.mp hp
      have hpr : p < S.indices[i].length := List.mem_range.mp hp2.1
      have hpcs : S.indices[i].getD p 0 ∈ cs := of_decide_eq_true hp2.2
      refine ⟨hpa ▸ List.indexOf_lt_length.mpr hpcs, ?_⟩
      rw [← hpa, getD_indexOf hpcs]
      exact getD_mem hpr
    · rintro ⟨ha, hmem⟩
      have hcsa : cs.getD a 0 ∈ cs := getD_mem ha
      have hp : S.indices[i].indexOf (cs.getD a 0) ∈ subsetCols S.indices[i] cs := by
        rw [subsetCols]
        refine List.mem_filter.mpr ⟨List.mem_range.mpr (List.indexOf_lt_length.mpr hmem), ?_⟩
        rw [getD_indexOf hmem]
        exact decide_eq_true hcsa
      refine List.mem_map.mpr ⟨_, hp, ?_⟩
      rw [getD_indexOf hmem, List.getD_eq_getElem _ _ ha]
      exact indexOf_getElem_of_nodup hnd a ha
  · intro i hi a ha
    rw [getD_map_lt _ _ _ hi] at ha
    rw [getD_map_lt (fun idx => some (subsetCols idx cs)) _ _ hi,
      getD_map_lt (fun idx => subsetColsIndices idx cs) _ _ hi]
    have hidx : S.indices.getD i [] = S.indices[i] := List.getD_eq_getElem _ _ hi
    rw [hidx]
    have hndidx : S.indices[i].Nodup := hnodup_parts _ (List.getElem_mem hi)
    obtain ⟨q, hq, hqa⟩ := List.mem_map.mp ha
    have hq2 := List.mem_filter.mp hq
    have hqr : q < S.indices[i].length := List.mem_range.mp hq2.1
    have hqcs : S.indices[i].getD q 0 ∈ cs := of_decide_eq_true hq2.2
    have hinj : ∀ x ∈ subsetCols S.indices[i] cs, ∀ y ∈ subsetCols S.indices[i] cs,
        cs.indexOf (S.indices[i].getD x 0) = cs.indexOf (S.indices[i].getD y 0) → x = y := by
      intro x hx y hy hxy
      have hx2 := List.mem_filter.mp hx
      have hy2 := List.mem_filter.mp hy
      have hxr : x < S.indices[i].length := List.mem_range.mp hx2.1
      have hyr : y < S.indices[i].length := List.mem_range.mp hy2.1
      have hxcs : S.indices[i].getD x 0 ∈ cs := of_decide_eq_true hx2.2
      have hycs : S.indices[i].getD y 0 ∈ cs := of_decide_eq_true hy2.2
      have : S.indices[i].getD x 0 = S.indices[i].getD y 0 := by
        have h1 := getD_indexOf hxcs 0
        have h2 := getD_indexOf hycs 0
        rw [← h1, ← h2, hxy]
      rw [List.getD_eq_getElem _ _ hxr, List.getD_eq_getElem _ _ hyr] at this
      exact (List.Nodup.getElem_inj_iff hndidx).mp this
    have hsciq : (subsetColsIndices S.indices[i] cs).indexOf a
        = (subsetCols S.indices[i] cs).indexOf q := by
      rw [← hqa, subsetColsIndices]
      exact indexOf_map_injOn hinj hq
    rw [effSel, Option.getD_some, hsciq, getD_indexOf hq]
    rw [← hqa, getD_indexOf hqcs]
    rw [List.getD_eq_getElem _ _ hqr]
    exact (indexOf_getElem_of_nodup hndidx q hqr).symm

/-- The owner of each valid column is in range. -/
theorem own_lt (S : SplitMat) (hval : S.valid) (c : ℕ) (hc : c < S.ncols) :
    S.own c < S.indices.length :=
  (own_spec S hval c hc).1

/-- Output slots translate to ownership: slot `a` lies in component
`i`'s slot list exactly when the requested column at `a` is owned by
component `i`. -/
theorem mem_sci (S : SplitMat) (cv : List ℕ) (sci : List (List ℕ))
    (sc : List (Option (List ℕ))) (hval : S.valid) (hsub : SubsetOK S cv sci sc)
    (hcv : ∀ c ∈ cv, c < S.ncols) (i : ℕ) (hi : i < S.indices.length) (a : ℕ) :
    a ∈ sci.getD i [] ↔ (a < cv.length ∧ S.own (cv.getD a 0) = i) := by
  rw [hsub.2.1 i hi a]
  constructor
  · rintro ⟨ha, hmem⟩
    have hc : cv.getD a 0 < S.ncols := hcv _ (getD_mem ha)
    exact ⟨ha, (own_unique S hval _ hc i hi hmem).symm⟩
  · rintro ⟨ha, hown⟩
    have hc : cv.getD a 0 < S.ncols := hcv _ (getD_mem ha)
    exact ⟨ha, hown ▸ (own_spec S hval _ hc).2⟩

/-- Beyond the component count the slot lists are empty. -/
theorem sci_empty_of_ge (S : SplitMat) (cv : List ℕ) (sci : List (List ℕ))
    (sc : List (Option (List ℕ))) (hsub : SubsetOK S cv sci sc) (i : ℕ)
    (hi : S.indices.length ≤ i) : sci.getD i [] = [] :=
  List.getD_eq_default _ _ (le_trans (le_of_eq hsub.1) hi)

/-- `wsum` respects pointwise-equal factor functions. -/
theorem wsum_congr (d : List ℚ) (rs : List ℕ) {f1 g1 f2 g2 : ℕ → ℚ}
    (hf : ∀ r, f1 r = f2 r) (hg : ∀ r, g1 r = g2 r) :
    wsum d rs f1 g1 = wsum d rs f2 g2 := by
  unfold wsum
  exact congrArg _ (List.map_congr_left fun r _ => by rw [hf, hg])

/-- `wsum` is symmetric in its two factor functions. -/
theorem wsum_comm (d : List ℚ) (rs : List ℕ) (f g : ℕ → ℚ) :
    wsum d rs f g = wsum d rs g f := by
  unfold wsum
  exact congrArg _ (List.map_congr_left fun r _ => by ring)

/-- `wsum` of pointwise-vanishing products is zero. -/
theorem wsum_zero (d : List ℚ) (rs : List ℕ) (f g : ℕ → ℚ)
    (h : ∀ r, f r = 0 ∨ g r = 0) : wsum d rs f g = 0 := by
  unfold wsum
  apply List.sum_eq_zero
  intro x hx
  obtain ⟨r, -, rfl⟩ := List.mem_map.mp hx
  rcases h r with h0 | h0 <;> rw [h0] <;> ring

/-- The dense reference value of the sandwich product at output slots
`(a, b)` of the requested columns `cv`:
`sum over r in rows of d[r] * toarray[r, cv[a]] * toarray[r, cv[b]]`. -/
def sandRef (S : SplitMat) (d : List ℚ) (rows? : Option (List ℕ)) (cv : List ℕ)
    (a b : ℕ) : ℚ :=
  wsum d (effSel rows? S.nrows)
    (fun r => S.toarrayFun r (cv.getD a 0)) (fun r => S.toarrayFun r (cv.getD b 0))

/-- The reference is symmetric. -/
theorem sandRef_symm (S : SplitMat) (d : List ℚ) (rows? : Option (List ℕ))
    (cv : List ℕ) (a b : ℕ) :
    sandRef S d rows? cv a b = sandRef S d rows? cv b a := by
  unfold sandRef
  exact wsum_comm _ _ _ _

/-- The sub-matrix held at a valid position has the shared row count. -/
theorem valid_mat_nrows (S : SplitMat) (hval : S.valid) (i : ℕ)
    (hi : i < S.indices.length) : (S.mats.getD i default).nrows = S.nrows := by
  have hlen := hval.1
  have him : i < S.mats.length := by omega
  rw [List.getD_eq_getElem _ _ him]
  exact hval.2.1 _ (List.getElem_mem him)

/-- A diagonal block entry of component `i` equals the global
reference at the corresponding output slots. -/
theorem diag_block_value (S : SplitMat) (d : List ℚ) (rows? : Option (List ℕ))
    (cv : List ℕ) (sci : List (List ℕ)) (sc : List (Option (List ℕ)))
    (hval : S.valid) (hsub : SubsetOK S cv sci sc) (hcv : ∀ c ∈ cv, c < S.ncols)
    (i : ℕ) (hi : i < S.indices.length) (a b : ℕ)
    (haI : a ∈ sci.getD i []) (hbI : b ∈ sci.getD i []) :
    (S.mats.getD i default).sandwichEntry d rows? (sc.getD i none)
        ((sci.getD i []).indexOf a) ((sci.getD i []).indexOf b)
      = sandRef S d rows? cv a b := by
  obtain ⟨ha, hownA⟩ := (mem_sci S cv sci sc hval hsub hcv i hi a).mp haI
  obtain ⟨hb, hownB⟩ := (mem_sci S cv sci sc hval hsub hcv i hi b).mp hbI
  have hca : cv.getD a 0 < S.ncols := hcv _ (getD_mem ha)
  have hcb : cv.getD b 0 < S.ncols := hcv _ (getD_mem hb)
  simp only [SubMat.sandwichEntry, sandRef]
  rw [hsub.2.2 i hi a haI, hsub.2.2 i hi b hbI, valid_mat_nrows S hval i hi]
  refine wsum_congr _ _ (fun r => ?_) (fun r => ?_)
  · rw [toarray_char S hval _ hca r, hownA]
  · rw [toarray_char S hval _ hcb r, hownB]

/-- A cross block entry between components `i` and `j` equals the
global reference at the corresponding output slots. -/
theorem cross_block_value (S : SplitMat) (d : List ℚ) (rows? : Option (List ℕ))
    (cv : List ℕ) (sci : List (List ℕ)) (sc : List (Option (List ℕ)))
    (hval : S.valid) (hsub : SubsetOK S cv sci sc) (hcv : ∀ c ∈ cv, c < S.ncols)
    (i j : ℕ) (hi : i < S.indices.length) (hj : j < S.indices.length) (a b : ℕ)
    (haI : a ∈ sci.getD i []) (hbJ : b ∈ sci.getD j []) :
    crossSandwichEntry (S.mats.getD i default) (S.mats.getD j default) d rows?
        (sc.getD i none) (sc.getD j none)
        ((sci.getD i []).indexOf a) ((sci.getD j []).indexOf b)
      = sandRef S d rows? cv a b := by
  obtain ⟨ha, hownA⟩ := (mem_sci S cv sci sc hval hsub hcv i hi a).mp haI
  obtain ⟨hb, hownB⟩ := (mem_sci S cv sci sc hval hsub hcv j hj b).mp hbJ
  have hca : cv.getD a 0 < S.ncols := hcv _ (getD_mem ha)
  have hcb : cv.getD b 0 < S.ncols := hcv _ (getD_mem hb)
  simp only [crossSandwichEntry, sandRef]
  rw [hsub.2.2 i hi a haI, hsub.2.2 j hj b hbJ, valid_mat_nrows S hval i hi]
  refine wsum_congr _ _ (fun r => ?_) (fun r => ?_)
  · rw [toarray_char S hval _ hca r, hownA]
  · rw [toarray_char S hval _ hcb r, hownB]

/-- A categorical sub-matrix has at most one nonzero entry per row
among its stored columns (each row belongs to exactly one category). -/
def SubMat.oneHotRows (m : SubMat) : Prop :=
  ∀ j1 < m.ncols, ∀ j2 < m.ncols, j1 ≠ j2 → ∀ r < m.nrows,
    m.entry r j1 = 0 ∨ m.entry r j2 = 0

instance (m : SubMat) : Decidable m.oneHotRows := by
  unfold SubMat.oneHotRows
  infer_instance

/-- The one-hot property extends to all indices for a well-formed
sub-matrix: out-of-range rows and columns read as zero. -/
theorem oneHot_entry (m : SubMat) (hoh : m.oneHotRows)
    (hwf : ∀ cl ∈ m.cols, cl.length = m.nrows)
    (j1 j2 : ℕ) (hne : j1 ≠ j2) (r : ℕ) :
    m.entry r j1 = 0 ∨ m.entry r j2 = 0 := by
  by_cases h1 : j1 < m.ncols
  · by_cases h2 : j2 < m.ncols
    · by_cases hr : r < m.nrows
      · exact hoh j1 h1 j2 h2 hne r hr
      · left
        have hcol : m.cols.getD j1 [] = m.cols[j1] := List.getD_eq_getElem _ _ h1
        have hlencl : m.cols[j1].length = m.nrows := hwf _ (List.getElem_mem h1)
        rw [SubMat.entry, colEntry, hcol]
        exact List.getD_eq_default _ _ (by omega)
    · right
      have hcols : m.cols.getD j2 [] = [] :=
        List.getD_eq_default _ _ (by simpa [SubMat.ncols] using h2)
      rw [SubMat.entry, colEntry, hcols]
      rfl
  · left
    have hcols : m.cols.getD j1 [] = [] :=
      List.getD_eq_default _ _ (by simpa [SubMat.ncols] using h1)
    rw [SubMat.entry, colEntry, hcols]
    rfl

/-- The reference vanishes at off-diagonal slots both owned by one
categorical component: its rows are one-hot, so distinct columns never
overlap. -/
theorem sandRef_offdiag_cat_zero (S : SplitMat) (d : List ℚ)
    (rows? : Option (List ℕ)) (cv : List ℕ) (hval : S.valid)
    (hcv : ∀ c ∈ cv, c < S.ncols) (hnd : cv.Nodup)
    (honehot : ∀ m ∈ S.mats, m.kind = .cat → m.oneHotRows)
    (i : ℕ) (hi : i < S.indices.length)
    (hcat : (S.mats.getD i default).kind = .cat)
    (a b : ℕ) (ha : a < cv.length) (hb : b < cv.length) (hab : a ≠ b)
    (hoa : S.own (cv.getD a 0) = i) (hob : S.own (cv.getD b 0) = i) :
    sandRef S d rows? cv a b = 0 := by
  have hca : cv.getD a 0 < S.ncols := hcv _ (getD_mem ha)
  have hcb : cv.getD b 0 < S.ncols := hcv _ (getD_mem hb)
  have hcne : cv.getD a 0 ≠ cv.getD b 0 := by
    rw [List.getD_eq_getElem _ _ ha, List.getD_eq_getElem _ _ hb]
    intro he
    exact hab ((List.Nodup.getElem_inj_iff hnd).mp he)
  have hmemA : cv.getD a 0 ∈ S.indices.getD i [] := hoa ▸ (own_spec S hval _ hca).2
  have hmemB : cv.getD b 0 ∈ S.indices.getD i [] := hob ▸ (own_spec S hval _ hcb).2
  have hpne : (S.indices.getD i []).indexOf (cv.getD a 0)
      ≠ (S.indices.getD i []).indexOf (cv.getD b 0) := by
    intro he
    apply hcne
    rw [← getD_indexOf hmemA 0, ← getD_indexOf hmemB 0, he]
  have hlen := hval.1
  have him : i < S.mats.length := by omega
  have hmem_mats : S.mats.getD i default ∈ S.mats := by
    rw [List.getD_eq_getElem _ _ him]
    exact List.getElem_mem him
  have hwf := hval.2.2.2.2 _ hmem_mats
  have hoh := honehot _ hmem_mats hcat
  unfold sandRef
  apply wsum_zero
  intro r
  rw [toarray_char S hval _ hca r, toarray_char S hval _ hcb r, hoa, hob]
  exact oneHot_entry _ hoh hwf _ _ hpne r

/-- Slot pairs finalized before outer iteration `i`: some coordinate's
owner was already processed. -/
def diagCond (S : SplitMat) (cv : List ℕ) (i a b : ℕ) : Prop :=
  S.own (cv.getD a 0) < i ∨ S.own (cv.getD b 0) < i

instance (S : SplitMat) (cv : List ℕ) (i a b : ℕ) : Decidable (diagCond S cv i a b) := by
  unfold diagCond
  infer_instance

/-- Slot pairs finalized inside outer iteration `i` once the inner
loop variable has reached `j`. -/
def crossCond (S : SplitMat) (cv : List ℕ) (i j a b : ℕ) : Prop :=
  S.own (cv.getD a 0) < i ∨ S.own (cv.getD b 0) < i
    ∨ (S.own (cv.getD a 0) = i ∧ S.own (cv.getD b 0) < j)
    ∨ (S.own (cv.getD b 0) = i ∧ S.own (cv.getD a 0) < j)

instance (S : SplitMat) (cv : List ℕ) (i j a b : ℕ) : Decidable (crossCond S cv i j a b) := by
  unfold crossCond
  infer_instance

/-- `diagWrite` against a categorical component is the diagonal
accumulation. -/
theorem diagWrite_eq_dia (S : SplitMat) (d : List ℚ) (rows? : Option (List ℕ))
    (sci : List (List ℕ)) (sc : List (Option (List ℕ))) (i : ℕ) (out : ℕ → ℕ → ℚ)
    (hcat : (S.mats.getD i default).kind = .cat) :
    diagWrite S d rows? sci sc i out
      = scDiaAdd out (sci.getD i [])
          (fun a => (S.mats.getD i default).sandwichEntry d rows? (sc.getD i none) a a) := by
  rw [diagWrite, SubMat.sandwichRes, if_pos hcat]

/-- `diagWrite` against a non-categorical component is the full block
assignment. -/
theorem diagWrite_eq_full (S : SplitMat) (d : List ℚ) (rows? : Option (List ℕ))
    (sci : List (List ℕ)) (sc : List (Option (List ℕ))) (i : ℕ) (out : ℕ → ℕ → ℚ)
    (hcat : ¬(S.mats.getD i default).kind = .cat) :
    diagWrite S d rows? sci sc i out
      = scFull out (sci.getD i []) (sci.getD i [])
          (fun a b => (S.mats.getD i default).sandwichEntry d rows? (sc.getD i none) a b) := by
  rw [diagWrite, SubMat.sandwichRes, if_neg hcat]

/-- Effect of the diagonal-block write of iteration `i` on the
invariant. -/
theorem diagWrite_char (S : SplitMat) (d : List ℚ) (rows? : Option (List ℕ))
    (cv : List ℕ) (sci : List (List ℕ)) (sc : List (Option (List ℕ)))
    (out : ℕ → ℕ → ℚ)
    (hval : S.valid) (hsub : SubsetOK S cv sci sc) (hcv : ∀ c ∈ cv, c < S.ncols)
    (hnd : cv.Nodup)
    (honehot : ∀ m ∈ S.mats, m.kind = .cat → m.oneHotRows)
    (i : ℕ) (hi : i < S.indices.length)
    (hout : ∀ a b, a < cv.length → b < cv.length →
      out a b = if diagCond S cv i a b then sandRef S d rows? cv a b else 0) :
    ∀ a b, a < cv.length → b < cv.length →
      diagWrite S d rows? sci sc i out a b
        = if crossCond S cv i (i + 1) a b then sandRef S d rows? cv a b else 0 := by
  intro a b ha hb
  have hmema := mem_sci S cv sci sc hval hsub hcv i hi a
  have hmemb := mem_sci S cv sci sc hval hsub hcv i hi b
  by_cases hcat : (S.mats.getD i default).kind = .cat
  · rw [diagWrite_eq_dia S d rows? sci sc i out hcat]
    simp only [scDiaAdd]
    by_cases hW : a = b ∧ a ∈ sci.getD i []
    · obtain ⟨heq, haI⟩ := hW
      subst heq
      rw [if_pos ⟨rfl, haI⟩]
      obtain ⟨-, hown⟩ := hmema.mp haI
      have hout0 : out a a = 0 := by
        rw [hout a a ha ha, if_neg]
        unfold diagCond
        omega
      rw [hout0, zero_add, if_pos (by unfold crossCond; omega)]
      exact diag_block_value S d rows? cv sci sc hval hsub hcv i hi a a haI haI
    · rw [if_neg hW, hout a b ha hb]
      by_cases hD : diagCond S cv i a b
      · rw [if_pos hD, if_pos (by unfold diagCond at hD; unfold crossCond; omega)]
      · by_cases hBoth : S.own (cv.getD a 0) = i ∧ S.own (cv.getD b 0) = i
        · have hab : a ≠ b := by
            rintro rfl
            exact hW ⟨rfl, hmema.mpr ⟨ha, hBoth.1⟩⟩
          rw [if_neg hD, if_pos (by unfold crossCond; omega)]
          exact (sandRef_offdiag_cat_zero S d rows? cv hval hcv hnd honehot i hi hcat
            a b ha hb hab hBoth.1 hBoth.2).symm
        · rw [if_neg hD, if_neg (by unfold diagCond at hD; unfold crossCond; omega)]
  · rw [diagWrite_eq_full S d rows? sci sc i out hcat]
    simp only [scFull]
    by_cases hW : a ∈ sci.getD i [] ∧ b ∈ sci.getD i []
    · rw [if_pos hW]
      obtain ⟨-, hoa⟩ := hmema.mp hW.1
      obtain ⟨-, hob⟩ := hmemb.mp hW.2
      rw [if_pos (by unfold crossCond; omega)]
      exact diag_block_value S d rows? cv sci sc hval hsub hcv i hi a b hW.1 hW.2
    · rw [if_neg hW, hout a b ha hb]
      by_cases hD : diagCond S cv i a b
      · rw [if_pos hD, if_pos (by unfold diagCond at hD; unfold crossCond; omega)]
      · have hnBoth : ¬(S.own (cv.getD a 0) = i ∧ S.own (cv.getD b 0) = i) := by
          rintro ⟨hx, hy⟩
          exact hW ⟨hmema.mpr ⟨ha, hx⟩, hmemb.mpr ⟨hb, hy⟩⟩
        rw [if_neg hD, if_neg (by unfold diagCond at hD; unfold crossCond; omega)]

/-- Effect of the symmetric cross-block write `(i, j)` on the
invariant. -/
theorem crossWrite_char (S : SplitMat) (d : List ℚ) (rows? : Option (List ℕ))
    (cv : List ℕ) (sci : List (List ℕ)) (sc : List (Option (List ℕ)))
    (out : ℕ → ℕ → ℚ)
    (hval : S.valid) (hsub : SubsetOK S cv sci sc) (hcv : ∀ c ∈ cv, c < S.ncols)
    (i j : ℕ) (hi : i < S.indices.length) (hij : i < j)
    (hout : ∀ a b, a < cv.length → b < cv.length →
      out a b = if crossCond S cv i j a b then sandRef S d rows? cv a b else 0) :
    ∀ a b, a < cv.length → b < cv.length →
      crossWrite S d rows? sci sc i j out a b
        = if crossCond S cv i (j + 1) a b then sandRef S d rows? cv a b else 0 := by
  intro a b ha hb
  simp only [crossWrite, scFull]
  by_cases hjlen : j < S.indices.length
  · have hmemaJ := mem_sci S cv sci sc hval hsub hcv j hjlen a
    have hmembI := mem_sci S cv sci sc hval hsub hcv i hi b
    have hmemaI := mem_sci S cv sci sc hval hsub hcv i hi a
    have hmembJ := mem_sci S cv sci sc hval hsub hcv j hjlen b
    by_cases hW1 : a ∈ sci.getD j [] ∧ b ∈ sci.getD i []
    · rw [if_pos hW1]
      obtain ⟨-, hoaJ⟩ := hmemaJ.mp hW1.1
      obtain ⟨-, hobI⟩ := hmembI.mp hW1.2
      rw [if_pos (by unfold crossCond; omega)]
      have hcv2 := cross_block_value S d rows? cv sci sc hval hsub hcv i j hi hjlen
        b a hW1.2 hW1.1
      rw [hcv2]
      exact sandRef_symm S d rows? cv b a
    · rw [if_neg hW1]
      by_cases hW2 : a ∈ sci.getD i [] ∧ b ∈ sci.getD j []
      · rw [if_pos hW2]
        obtain ⟨-, hoaI⟩ := hmemaI.mp hW2.1
        obtain ⟨-, hobJ⟩ := hmembJ.mp hW2.2
        rw [if_pos (by unfold crossCond; omega)]
        exact cross_block_value S d rows? cv sci sc hval hsub hcv i j hi hjlen
          a b hW2.1 hW2.2
      · rw [if_neg hW2, hout a b ha hb]
        have h1 : ¬(S.own (cv.getD a 0) = i ∧ S.own (cv.getD b 0) = j) := by
          rintro ⟨hx, hy⟩
          exact hW2 ⟨hmemaI.mpr ⟨ha, hx⟩, hmembJ.mpr ⟨hb, hy⟩⟩
        have h2 : ¬(S.own (cv.getD a 0) = j ∧ S.own (cv.getD b 0) = i) := by
          rintro ⟨hx, hy⟩
          exact hW1 ⟨hmemaJ.mpr ⟨ha, hx⟩, hmembI.mpr ⟨hb, hy⟩⟩
        by_cases hC : crossCond S cv i j a b
        · rw [if_pos hC, if_pos (by unfold crossCond at hC ⊢; omega)]
        · rw [if_neg hC, if_neg (by unfold crossCond at hC ⊢; omega)]
  · have hempty : sci.getD j [] = [] := sci_empty_of_ge S cv sci sc hsub j (by omega)
    have hnot1 : ¬(a ∈ sci.getD j [] ∧ b ∈ sci.getD i []) := by
      rw [hempty]
      rintro ⟨h, -⟩
      cases h
    have hnot2 : ¬(a ∈ sci.getD i [] ∧ b ∈ sci.getD j []) := by
      rw [hempty]
      rintro ⟨-, h⟩
      cases h
    rw [if_neg hnot1, if_neg hnot2, hout a b ha hb]
    have hoalt := own_lt S hval _ (hcv _ (getD_mem ha))
    have hoblt := own_lt S hval _ (hcv _ (getD_mem hb))
    by_cases hC : crossCond S cv i j a b
    · rw [if_pos hC, if_pos (by unfold crossCond at hC ⊢; omega)]
    · rw [if_neg hC, if_neg (by unfold crossCond at hC ⊢; omega)]

/-- Characterization of the inner cross loop. -/
theorem crossLoop_char (S : SplitMat) (d : List ℚ) (rows? : Option (List ℕ))
    (cv : List ℕ) (sci : List (List ℕ)) (sc : List (Option (List ℕ)))
    (hval : S.valid) (hsub : SubsetOK S cv sci sc) (hcv : ∀ c ∈ cv, c < S.ncols)
    (i : ℕ) (hi : i < S.indices.length) :
    ∀ (t j : ℕ) (out : ℕ → ℕ → ℚ), i < j →
      (∀ a b, a < cv.length → b < cv.length →
        out a b = if crossCond S cv i j a b then sandRef S d rows? cv a b else 0) →
      ∀ a b, a < cv.length → b < cv.length →
        crossLoop S d rows? sci sc i j t out a b
          = if crossCond S cv i (j + t) a b then sandRef S d rows? cv a b else 0 := by
  intro t
  induction t with
  | zero =>
      intro j out hij hout a b ha hb
      simp only [crossLoop, Nat.add_zero]
      exact hout a b ha hb
  | succ t0 ih =>
      intro j out hij hout a b ha hb
      simp only [crossLoop]
      have hstep := crossWrite_char S d rows? cv sci sc out hval hsub hcv i j hi hij hout
      have hres := ih (j + 1) _ (by omega) hstep a b ha hb
      rw [hres]
      have harith : j + 1 + t0 = j + (t0 + 1) := by omega
      rw [harith]

/-- Characterization of the outer loop of `SplitMatrix.sandwich`. -/
theorem outerLoop_char (S : SplitMat) (d : List ℚ) (rows? : Option (List ℕ))
    (cv : List ℕ) (sci : List (List ℕ)) (sc : List (Option (List ℕ)))
    (hval : S.valid) (hsub : SubsetOK S cv sci sc) (hcv : ∀ c ∈ cv, c < S.ncols)
    (hnd : cv.Nodup)
    (honehot : ∀ m ∈ S.mats, m.kind = .cat → m.oneHotRows) :
    ∀ (t i : ℕ) (out : ℕ → ℕ → ℚ), i + t = S.indices.length →
      (∀ a b, a < cv.length → b < cv.length →
        out a b = if diagCond S cv i a b then sandRef S d rows? cv a b else 0) →
      ∀ a b, a < cv.length → b < cv.length →
        outerLoop S d rows? sci sc i t out a b
          = if diagCond S cv (i + t) a b then sandRef S d rows? cv a b else 0 := by
  intro t
  induction t with
  | zero =>
      intro i out hit hout a b ha hb
      simp only [outerLoop, Nat.add_zero]
      exact hout a b ha hb
  | succ t0 ih =>
      intro i out hit hout a b ha hb
      have hi : i < S.indices.length := by omega
      simp only [outerLoop]
      have hdiag := diagWrite_char S d rows? cv sci sc out hval hsub hcv hnd honehot i hi hout
      have hcross := crossLoop_char S d rows? cv sci sc hval hsub hcv i hi
        (S.indices.length - (i + 1)) (i + 1) _ (by omega) hdiag
      have hconv : ∀ a2 b2, a2 < cv.length → b2 < cv.length →
          crossLoop S d rows? sci sc i (i + 1) (S.indices.length - (i + 1))
              (diagWrite S d rows? sci sc i out) a2 b2
            = if diagCond S cv (i + 1) a2 b2 then sandRef S d rows? cv a2 b2 else 0 := by
        intro a2 b2 ha2 hb2
        rw [hcross a2 b2 ha2 hb2]
        have harith : i + 1 + (S.indices.length - (i + 1)) = S.indices.length := by omega
        rw [harith]
        have hoalt := own_lt S hval _ (hcv _ (getD_mem ha2))
        have hoblt := own_lt S hval _ (hcv _ (getD_mem hb2))
        by_cases hC : crossCond S cv i S.indices.length a2 b2
        · rw [if_pos hC, if_pos (by unfold crossCond at hC; unfold diagCond; omega)]
        · rw [if_neg hC, if_neg (by unfold crossCond at hC; unfold diagCond; omega)]
      have hres := ih (i + 1) _ (by omega) hconv a b ha hb
      rw [hres]
      have harith : i + 1 + t0 = i + (t0 + 1) := by omega
      rw [harith]

/-- `SplitMatrix.sandwich` with the weight-length guard of
split_matrix.py:246-247: a wrong-length `d` raises (is `none`). -/
def SplitMat.sandwich (S : SplitMat) (d : List ℚ) (rows? cols? : Option (List ℕ)) :
    Option (ℕ → ℕ → ℚ) :=
  if d.length = S.nrows then some (S.sandwichFun d rows? cols?) else none

/-- C1: on every validly constructed SplitMatrix (with one-hot
categorical components), for every weight vector of length `nrows` and
every optional row list and duplicate-free in-range column list, the
sandwich guard passes and every entry of the computed block matrix
equals the dense reference
`(toarray[rows][:, cols]).T @ diag(d[rows]) @ toarray[rows][:, cols]`. -/
theorem split_sandwich_eq_reference (S : SplitMat) (d : List ℚ)
    (rows? cols? : Option (List ℕ))
    (hval : S.valid)
    (honehot : ∀ m ∈ S.mats, m.kind = .cat → m.oneHotRows)
    (hd : d.length = S.nrows)
    (hcols : ∀ cs ∈ cols?, cs.Nodup ∧ ∀ c ∈ cs, c < S.ncols) :
    S.sandwich d rows? cols? = some (S.sandwichFun d rows? cols?)
      ∧ ∀ a b, a < (effSel cols? S.ncols).length → b < (effSel cols? S.ncols).length →
          S.sandwichFun d rows? cols? a b = sandRef S d rows? (effSel cols? S.ncols) a b := by
  refine ⟨by rw [SplitMat.sandwich, if_pos hd], ?_⟩
  have hmain : ∀ (cv : List ℕ) (sci : List (List ℕ)) (sc : List (Option (List ℕ))),
      SubsetOK S cv sci sc → (∀ c ∈ cv, c < S.ncols) → cv.Nodup →
      ∀ a b, a < cv.length → b < cv.length →
        outerLoop S d rows? sci sc 0 S.indices.length (fun _ _ => 0) a b
          = sandRef S d rows? cv a b := by
    intro cv sci sc hsub hcv hnd a b ha hb
    have hzero : ∀ a2 b2, a2 < cv.length → b2 < cv.length →
        (fun _ _ => (0 : ℚ)) a2 b2
          = if diagCond S cv 0 a2 b2 then sandRef S d rows? cv a2 b2 else 0 := by
      intro a2 b2 _ _
      rw [if_neg]
      unfold diagCond
      omega
    have hrun := outerLoop_char S d rows? cv sci sc hval hsub hcv hnd honehot
      S.indices.length 0 _ (by omega) hzero a b ha hb
    rw [hrun, if_pos]
    unfold diagCond
    have hoalt := own_lt S hval _ (hcv _ (getD_mem ha))
    omega
  cases cols? with
  | none =>
      intro a b ha hb
      show outerLoop S d rows? S.indices (S.indices.map fun _ => none) 0
          S.indices.length (fun _ _ => 0) a b = sandRef S d rows? (List.range S.ncols) a b
      exact hmain (List.range S.ncols) S.indices (S.indices.map fun _ => none)
        (subsetOK_none S hval) (fun c hc => List.mem_range.mp hc)
        (List.nodup_range _) a b ha hb
  | some cs =>
      intro a b ha hb
      obtain ⟨hnd, hbound⟩ := hcols cs (Option.mem_def.mpr rfl)
      show outerLoop S d rows? (S.indices.map fun idx => subsetColsIndices idx cs)
          (S.indices.map fun idx => some (subsetCols idx cs)) 0
          S.indices.length (fun _ _ => 0) a b = sandRef S d rows? cs a b
      exact hmain cs _ _ (subsetOK_some S hval cs hnd) hbound hnd a b ha hb

/-- Sparse is not the categorical kind (used to reduce the dispatch). -/
theorem sparse_ne_cat : (MatKind.sparse = MatKind.cat) = False := by simp

/-- Dense is not the categorical kind (used to reduce the dispatch). -/
theorem dense_ne_cat : (MatKind.dense = MatKind.cat) = False := by simp

/-- The spec's concrete dense matrix `[[0,0],[0,-1],[0,2]]` as a single
sub-matrix. -/
def denseScenario : SubMat := ⟨.dense, 3, [[0, 0, 0], [0, -1, 2]], .f64⟩

/-- C1 witness: the concrete SplitMatrix holding column 0 of
`[[0,0],[0,-1],[0,2]]` as a dense part and column 1 as a sparse part
satisfies the hypotheses, the general theorem applies, and the
computed sandwich with `d = [1,1,1]` is the 2x2 matrix
`[[0,0],[0,5]]` — identical to the dense matrix's own sandwich. -/
theorem split_sandwich_eq_reference_witness :
    (splitWitness.valid
        ∧ (∀ m ∈ splitWitness.mats, m.kind = .cat → m.oneHotRows)
        ∧ ([1, 1, 1] : List ℚ).length = splitWitness.nrows)
      ∧ (splitWitness.sandwich [1, 1, 1] none none
            = some (splitWitness.sandwichFun [1, 1, 1] none none)
          ∧ ∀ a b, a < (effSel none splitWitness.ncols).length →
              b < (effSel none splitWitness.ncols).length →
              splitWitness.sandwichFun [1, 1, 1] none none a b
                = sandRef splitWitness [1, 1, 1] none (effSel none splitWitness.ncols) a b)
      ∧ (splitWitness.sandwichFun [1, 1, 1] none none 0 0 = 0
          ∧ splitWitness.sandwichFun [1, 1, 1] none none 0 1 = 0
          ∧ splitWitness.sandwichFun [1, 1, 1] none none 1 0 = 0
          ∧ splitWitness.sandwichFun [1, 1, 1] none none 1 1 = 5)
      ∧ (denseScenario.sandwichEntry [1, 1, 1] none none 0 0 = 0
          ∧ denseScenario.sandwichEntry [1, 1, 1] none none 0 1 = 0
          ∧ denseScenario.sandwichEntry [1, 1, 1] none none 1 0 = 0
          ∧ denseScenario.sandwichEntry [1, 1, 1] none none 1 1 = 5) := by
  refine ⟨⟨by decide, by decide, by decide⟩, ?_, ?_, ?_⟩
  · exact split_sandwich_eq_reference splitWitness [1, 1, 1] none none (by decide)
      (by decide) (by decide) (by intro cs hcs; cases hcs)
  · refine ⟨?_, ?_, ?_, ?_⟩ <;>
      norm_num [SplitMat.sandwichFun, SplitMat.splitColSubsets, outerLoop, crossLoop,
        diagWrite, crossWrite, SubMat.sandwichRes, scFull, scDiaAdd, SubMat.sandwichEntry,
        crossSandwichEntry, wsum, effSel, SubMat.ncols, SubMat.entry, colEntry,
        splitWitness, List.range_succ, sparse_ne_cat, dense_ne_cat]
  · refine ⟨?_, ?_, ?_, ?_⟩ <;>
      norm_num [SubMat.sandwichEntry, wsum, effSel, SubMat.ncols, SubMat.entry, colEntry,
        denseScenario, List.range_succ]

/-!
### SplitMatrix construction (split_matrix.py:64-103 and 115-182)
-/

/-- A raw element handed to the SplitMatrix constructor: a proper
sub-matrix, a nested SplitMatrix, or an object that is not a matrix. -/
inductive Elt where
  | base (m : SubMat)
  | splitElt
  | notMatrix
deriving DecidableEq

/-- Whether a constructor argument is an ordinary matrix. -/
def Elt.isBase : Elt → Prop
  | .base _ => True
  | _ => False

instance (e : Elt) : Decidable e.isBase := by
  cases e <;> simp [Elt.isBase] <;> infer_instance

/-- The failure modes of `SplitMatrix.__init__`. -/
inductive SplitErr where
  | notAMatrix
  | nestedSplit
  | emptyList
  | rowMismatch
  | badPartition
  | badIdxLength
  | zeroColumns
deriving DecidableEq

/-- The per-element type scan of `SplitMatrix.__init__`
(split_matrix.py:120-127): every element must be a MatrixBase and no
element may itself be a SplitMatrix. -/
def scanElems : List Elt → Except SplitErr (List SubMat)
  | [] => .ok []
  | .base m :: rest => (scanElems rest).map (fun l => m :: l)
  | .splitElt :: _ => .error .nestedSplit
  | .notMatrix :: _ => .error .notAMatrix

/-- The sub-matrices of a well-typed element list. -/
def eltMats (elts : List Elt) : List SubMat :=
  elts.filterMap (fun e => match e with | .base m => some m | _ => none)

/-- Auto-assigned contiguous global index lists, in input order
(split_matrix.py:148-156): `np.arange(current, current + width)` per
sub-matrix. -/
def autoIndices : List SubMat → ℕ → List (List ℕ)
  | [], _ => []
  | m :: rest, start => List.range' start m.ncols :: autoIndices rest (start + m.ncols)

/-- The `this_type_matrices` position list of `combine_matrices`
(split_matrix.py:86-88). -/
def typePositions (k : MatKind) (ms : List SubMat) : List ℕ :=
  (List.range ms.length).filter (fun i => decide ((ms.getD i default).kind = k))

/-- Drop the elements at the listed positions (the filtered
reconstruction at split_matrix.py:97-102). -/
def removeIdxs {α : Type} [Inhabited α] (l : List α) (drop : List ℕ) : List α :=
  ((List.range l.length).filter (fun i => decide (i ∉ drop))).map (fun i => l.getD i default)

/-- The column-stacked replacement sub-matrix
(`mat_type_(stack_fn([...]))`, split_matrix.py:90-92): the kind's
matrices' columns concatenated in encounter order; `hstack` keeps the
shared row count, and the dtype tag is that of the first operand
(dtypes do not affect the exact-arithmetic value semantics). -/
def stackedOf (k : MatKind) (ms : List SubMat) : SubMat :=
  ⟨k, (ms.getD ((typePositions k ms).headD 0) default).nrows,
   ((typePositions k ms).map (fun i => (ms.getD i default).cols)).flatten,
   (ms.getD ((typePositions k ms).headD 0) default).dtype⟩

/-- The concatenated index arrays of the merged sub-matrices
(`np.concatenate([indices[i] for i in this_type_matrices])`,
split_matrix.py:94-96). -/
def idxJOf (k : MatKind) (ms : List SubMat) (idxs : List (List ℕ)) : List ℕ :=
  ((typePositions k ms).map (fun i => idxs.getD i [])).flatten

/-- One pass of `combine_matrices` for one storage kind
(split_matrix.py:82-102): when more than one sub-matrix of the kind
exists, replace the first with the column-stack of all of them,
concatenate their index arrays in encounter order in its slot, and
drop the rest. -/
def combinePass (k : MatKind) (msidxs : List SubMat × List (List ℕ)) :
    List SubMat × List (List ℕ) :=
  let ms := msidxs.1
  let idxs := msidxs.2
  let pos := typePositions k ms
  if 1 < pos.length then
    (removeIdxs (ms.set (pos.headD 0) (stackedOf k ms)) (pos.drop 1),
     removeIdxs (idxs.set (pos.headD 0) (idxJOf k ms idxs)) (pos.drop 1))
  else msidxs

/-- `combine_matrices` (split_matrix.py:64-103): a dense pass followed
by a sparse pass over the updated lists. -/
def combineMatrices (ms : List SubMat) (idxs : List (List ℕ)) :
    List SubMat × List (List ℕ) :=
  combinePass .sparse (combinePass .dense (ms, idxs))

/-- The partition check on supplied indices
(`np.sort(all_indices) == np.arange(n_col)`, split_matrix.py:161):
vacuously true when indices are auto-assigned. -/
def partOK (idxs? : Option (List (List ℕ))) : Bool :=
  match idxs? with
  | none => true
  | some l => decide (l.flatten.Perm (List.range l.flatten.length))

/-- The index lists the constructor works with: auto-assigned when
none are supplied. -/
def mkIdxs (mats : List SubMat) (idxs? : Option (List (List ℕ))) : List (List ℕ) :=
  match idxs? with
  | none => autoIndices mats 0
  | some l => l

/-- The total column count `n_col` computed by the constructor from
the scanned sub-matrices: sum of widths when indices are
auto-assigned, length of the concatenated index arrays when
supplied. -/
def mkNcols0 (mats : List SubMat) (idxs? : Option (List (List ℕ))) : ℕ :=
  match idxs? with
  | none => (mats.map SubMat.ncols).sum
  | some idxs => idxs.flatten.length

/-- The total column count in terms of the raw element list. -/
def mkNcols (elts : List Elt) (idxs? : Option (List (List ℕ))) : ℕ :=
  mkNcols0 (eltMats elts) idxs?

/-- `SplitMatrix.__init__` (split_matrix.py:115-182) as a checked
constructor: the element type scan, the IndexError on an empty list
(`matrices[0]` at line 131), the shared-row-count check (the dtype
mismatch only warns and is not modelled), the auto-assignment or the
sorted-concatenation partition check, the per-pair index-length check
over `zip(matrices, indices)`, the merge, and the final
`assert self.shape[1] > 0`. -/
def mkSplit (elts : List Elt) (idxs? : Option (List (List ℕ))) :
    Except SplitErr SplitMat :=
  match scanElems elts with
  | .error e => .error e
  | .ok mats =>
    match mats with
    | [] => .error .emptyList
    | m0 :: rest =>
        if (m0 :: rest).any (fun m => decide (m.nrows ≠ m0.nrows)) then
          .error .rowMismatch
        else if partOK idxs? = false then
          .error .badPartition
        else if ((m0 :: rest).zip (mkIdxs (m0 :: rest) idxs?)).any
            (fun p => decide (p.2.length ≠ p.1.ncols)) then
          .error .badIdxLength
        else if mkNcols0 (m0 :: rest) idxs? = 0 then
          .error .zeroColumns
        else
          .ok ⟨m0.nrows, mkNcols0 (m0 :: rest) idxs?, m0.dtype,
            (combineMatrices (m0 :: rest) (mkIdxs (m0 :: rest) idxs?)).1,
            (combineMatrices (m0 :: rest) (mkIdxs (m0 :: rest) idxs?)).2⟩

/-- A fully well-typed element list scans to its sub-matrices. -/
theorem scanElems_ok_of (elts : List Elt) (h : ∀ e ∈ elts, e.isBase) :
    scanElems elts = .ok (eltMats elts) := by
  induction elts with
  | nil => rfl
  | cons e rest ih =>
      cases e with
      | base m =>
          rw [scanElems, ih (fun x hx => h x (List.mem_cons_of_mem _ hx))]
          rfl
      | splitElt => exact absurd (h _ (List.mem_cons_self _ _)) (by simp [Elt.isBase])
      | notMatrix => exact absurd (h _ (List.mem_cons_self _ _)) (by simp [Elt.isBase])

/-- A list with an ill-typed element scans to an error. -/
theorem scanElems_err_of (elts : List Elt) (h : ¬ ∀ e ∈ elts, e.isBase) :
    ∃ er, scanElems elts = .error er := by
  induction elts with
  | nil => exact absurd (by intro e he; cases he) h
  | cons e rest ih =>
      cases e with
      | base m =>
          have hrest : ¬ ∀ e ∈ rest, e.isBase := by
            intro hall
            exact h (by
              intro x hx
              rcases List.mem_cons.mp hx with rfl | hx2
              · trivial
              · exact hall x hx2)
          obtain ⟨er, her⟩ := ih hrest
          exact ⟨er, by rw [scanElems, her]; rfl⟩
      | splitElt => exact ⟨.nestedSplit, rfl⟩
      | notMatrix => exact ⟨.notAMatrix, rfl⟩

/-- A nonempty well-typed element list has a sub-matrix. -/
theorem eltMats_ne_nil (elts : List Elt) (h : ∀ e ∈ elts, e.isBase)
    (hne : elts ≠ []) : eltMats elts ≠ [] := by
  cases elts with
  | nil => exact absurd rfl hne
  | cons e rest =>
      cases e with
      | base m => simp [eltMats]
      | splitElt => exact absurd (h _ (List.mem_cons_self _ _)) (by simp [Elt.isBase])
      | notMatrix => exact absurd (h _ (List.mem_cons_self _ _)) (by simp [Elt.isBase])

/-- Auto-assigned index lists always have matching per-matrix
lengths. -/
theorem autoIndices_align :
    ∀ (mats : List SubMat) (s : ℕ), ∀ p ∈ mats.zip (autoIndices mats s),
      p.2.length = p.1.ncols := by
  intro mats
  induction mats with
  | nil => intro s p hp; cases hp
  | cons m rest ih =>
      intro s p hp
      rw [autoIndices, List.zip_cons_cons] at hp
      rcases List.mem_cons.mp hp with rfl | hp2
      · simp [List.length_range']
      · exact ih (s + m.ncols) p hp2

/-- C5 (amended): SplitMatrix construction succeeds exactly when every
element is an ordinary matrix (not a SplitMatrix), the list is
nonempty, all sub-matrices share the first one's row count, any
supplied index lists concatenate to a permutation of `0..n_cols-1`
(`np.sort == np.arange`), each sub-matrix paired by `zip` with an index
list has a matching length, and the total column count is nonzero.
The last two ways to fail — an empty matrix list (IndexError at
`matrices[0]`) and zero total columns (`assert self.shape[1] > 0`) —
are the corrections to the claim; with no indices supplied the
auto-assignment makes the partition and length checks vacuous. -/
theorem mkSplit_ok_iff (elts : List Elt) (idxs? : Option (List (List ℕ))) :
    (∃ S, mkSplit elts idxs? = Except.ok S)
      ↔ ((∀ e ∈ elts, e.isBase)
          ∧ elts ≠ []
          ∧ (∀ m ∈ eltMats elts, m.nrows = ((eltMats elts).headD default).nrows)
          ∧ (∀ idxs ∈ idxs?, idxs.flatten.Perm (List.range idxs.flatten.length))
          ∧ (∀ idxs ∈ idxs?, ∀ p ∈ (eltMats elts).zip idxs, p.2.length = p.1.ncols)
          ∧ mkNcols elts idxs? ≠ 0) := by
  by_cases hbase : ∀ e ∈ elts, e.isBase
  case neg =>
      refine iff_of_false ?_ (by tauto)
      rintro ⟨S, hS⟩
      obtain ⟨er, her⟩ := scanElems_err_of elts hbase
      rw [mkSplit.eq_def, her] at hS
      exact absurd hS (by simp)
  case pos =>
      have hscan := scanElems_ok_of elts hbase
      by_cases hne : elts = []
      case pos =>
          subst hne
          refine iff_of_false ?_ (by tauto)
          rintro ⟨S, hS⟩
          rw [mkSplit.eq_def] at hS
          exact absurd hS (by simp [scanElems])
      case neg =>
          cases hmats : eltMats elts with
          | nil => exact absurd hmats (eltMats_ne_nil elts hbase hne)
          | cons m0 mrest =>
              rw [hmats] at hscan
              have hred : mkSplit elts idxs?
                  = (if (m0 :: mrest).any (fun m => decide (m.nrows ≠ m0.nrows)) then
                      Except.error .rowMismatch
                    else if partOK idxs? = false then
                      Except.error .badPartition
                    else if ((m0 :: mrest).zip (mkIdxs (m0 :: mrest) idxs?)).any
                        (fun p => decide (p.2.length ≠ p.1.ncols)) then
                      Except.error .badIdxLength
                    else if mkNcols0 (m0 :: mrest) idxs? = 0 then
                      Except.error .zeroColumns
                    else
                      Except.ok ⟨m0.nrows, mkNcols0 (m0 :: mrest) idxs?, m0.dtype,
                        (combineMatrices (m0 :: mrest) (mkIdxs (m0 :: mrest) idxs?)).1,
                        (combineMatrices (m0 :: mrest) (mkIdxs (m0 :: mrest) idxs?)).2⟩) := by
                rw [mkSplit.eq_def, hscan]
              rw [hred]
              have hnc : mkNcols elts idxs? = mkNcols0 (m0 :: mrest) idxs? := by
                rw [mkNcols, hmats]
              constructor
              · rintro ⟨S, hS⟩
                by_cases h1 : ((m0 :: mrest).any fun m => decide (m.nrows ≠ m0.nrows)) = true
                case pos =>
                  rw [if_pos h1] at hS
                  exact absurd hS (by simp)
                rw [if_neg h1] at hS
                by_cases h2 : partOK idxs? = false
                case pos =>
                  rw [if_pos h2] at hS
                  exact absurd hS (by simp)
                rw [if_neg h2] at hS
                by_cases h3 : (((m0 :: mrest).zip (mkIdxs (m0 :: mrest) idxs?)).any
                    fun p => decide (p.2.length ≠ p.1.ncols)) = true
                case pos =>
                  rw [if_pos h3] at hS
                  exact absurd hS (by simp)
                rw [if_neg h3] at hS
                by_cases h4 : mkNcols0 (m0 :: mrest) idxs? = 0
                case pos =>
                  rw [if_pos h4] at hS
                  exact absurd hS (by simp)
                refine ⟨hbase, hne, ?_, ?_, ?_, ?_⟩
                · intro m hm
                  rw [List.any_eq_true] at h1
                  push_neg at h1
                  have := h1 m hm
                  simpa using this
                · intro idxs hidxs
                  cases idxs? with
                  | none => cases hidxs
                  | some l =>
                      cases hidxs
                      simpa [partOK] using h2
                · intro idxs hidxs
                  cases idxs? with
                  | none => cases hidxs
                  | some l =>
                      cases hidxs
                      intro p hp
                      rw [List.any_eq_true] at h3
                      push_neg at h3
                      have := h3 p (by simpa [mkIdxs] using hp)
                      simpa using this
                · rw [hnc]
                  exact h4
              · rintro ⟨-, -, hrows, hpart, hzip, hncol⟩
                have h1 : ¬ ((m0 :: mrest).any (fun m => decide (m.nrows ≠ m0.nrows)) = true) := by
                  rw [List.any_eq_true]
                  push_neg
                  intro m hm
                  have := hrows m hm
                  simp only [List.headD_cons] at this
                  simp [this]
                have h2 : ¬ (partOK idxs? = false) := by
                  cases idxs? with
                  | none => simp [partOK]
                  | some l =>
                      have hp := hpart l (Option.mem_def.mpr rfl)
                      simpa [partOK] using hp
                have h3 : ¬ (((m0 :: mrest).zip (mkIdxs (m0 :: mrest) idxs?)).any
                    (fun p => decide (p.2.length ≠ p.1.ncols)) = true) := by
                  rw [List.any_eq_true]
                  push_neg
                  intro p hp
                  cases idxs? with
                  | none =>
                      have := autoIndices_align (m0 :: mrest) 0 p (by simpa [mkIdxs] using hp)
                      simp [this]
                  | some l =>
                      have := hzip l (Option.mem_def.mpr rfl) p (by simpa [mkIdxs] using hp)
                      simp [this]
                have h4 : ¬ (mkNcols0 (m0 :: mrest) idxs? = 0) := by
                  rw [← hnc]
                  exact hncol
                rw [if_neg h1, if_neg h2, if_neg h3, if_neg h4]
                exact ⟨_, rfl⟩

/-- A well-formed dense sub-matrix with one row and zero columns. -/
def zeroColMat : SubMat := ⟨.dense, 1, [], .f64⟩

/-- C5 counterexample: the one-element list holding a 1x0 dense matrix
with the supplied index partition `[[]]` satisfies every condition of
the original claim — every element is a Matrix, none is a nested
SplitMatrix, row counts agree, the concatenated indices are exactly
`{0..n_cols-1}` (the empty set, `n_cols = 0`) and the per-matrix index
lengths match — yet construction fails, at the final
`assert self.shape[1] > 0`. -/
theorem mkSplit_zero_columns_cex :
    (∀ e ∈ [Elt.base zeroColMat], e.isBase)
      ∧ ([Elt.base zeroColMat] ≠ ([] : List Elt))
      ∧ (∀ m ∈ eltMats [Elt.base zeroColMat], ∀ m2 ∈ eltMats [Elt.base zeroColMat],
          m.nrows = m2.nrows)
      ∧ ([([] : List ℕ)] : List (List ℕ)).flatten.Perm
          (List.range ([([] : List ℕ)] : List (List ℕ)).flatten.length)
      ∧ (∀ p ∈ (eltMats [Elt.base zeroColMat]).zip ([([] : List ℕ)] : List (List ℕ)),
          p.2.length = p.1.ncols)
      ∧ mkSplit [Elt.base zeroColMat] (some [([] : List ℕ)])
          = Except.error SplitErr.zeroColumns := by
  refine ⟨by decide, by decide, by decide, by decide, by decide, ?_⟩
  rfl

/-!
### combine_matrices preserves the represented matrix (C6)
-/

/-- A list equals the `getD` image of its index range. -/
theorem map_getD_range {α : Type} [Inhabited α] (l : List α) :
    (List.range l.length).map (fun i => l.getD i default) = l := by
  apply List.ext_getElem
  · simp
  · intro i h1 h2
    simp only [List.getElem_map, List.getElem_range]
    rw [List.getD_eq_getElem _ _ h2]

/-- Membership in a position-filtered list. -/
theorem mem_removeIdxs {α : Type} [Inhabited α] {l : List α} {drop : List ℕ} {q : α} :
    q ∈ removeIdxs l drop ↔ ∃ i, i < l.length ∧ i ∉ drop ∧ l.getD i default = q := by
  unfold removeIdxs
  constructor
  · intro h
    obtain ⟨i, hif, heq⟩ := List.mem_map.mp h
    have h2 := List.mem_filter.mp hif
    exact ⟨i, List.mem_range.mp h2.1, of_decide_eq_true h2.2, heq⟩
  · rintro ⟨i, hlen, hdrop, heq⟩
    exact List.mem_map.mpr
      ⟨i, List.mem_filter.mpr ⟨List.mem_range.mpr hlen, decide_eq_true hdrop⟩, heq⟩

/-- Zipping two equally-long position-filtered lists filters the
zipped positions. -/
theorem zip_removeIdxs (ms : List SubMat) (idxs : List (List ℕ)) (drop : List ℕ)
    (hlen : ms.length = idxs.length) :
    (removeIdxs ms drop).zip (removeIdxs idxs drop)
      = ((List.range ms.length).filter (fun i => decide (i ∉ drop))).map
          (fun i => (ms.getD i default, idxs.getD i default)) := by
  unfold removeIdxs
  rw [hlen]
  exact List.zip_map' _ _ _

/-- Folding toarray assignments over a pair list in which one listed
pair holds the column and every pair holding the column equals it
yields that pair's entry. -/
theorem foldl_toarrayStep_mem :
    ∀ (l : List (SubMat × List ℕ)) (init : ℕ → ℕ → ℚ) (r c : ℕ)
      (m0 : SubMat) (idx0 : List ℕ),
      (m0, idx0) ∈ l → c ∈ idx0 →
      (∀ p ∈ l, c ∈ p.2 → p = (m0, idx0)) →
      l.foldl toarrayStep init r c = m0.entry r (idx0.indexOf c) := by
  intro l
  induction l with
  | nil => intro init r c m0 idx0 hmem; cases hmem
  | cons p rest ih =>
      intro init r c m0 idx0 hmem hc huniq
      rw [List.foldl_cons]
      by_cases hcp : c ∈ p.2
      · have hp := huniq p (List.mem_cons_self _ _) hcp
        subst hp
        by_cases hrest : (m0, idx0) ∈ rest
        · exact ih _ r c m0 idx0 hrest hc
            (fun q hq hcq => huniq q (List.mem_cons_of_mem _ hq) hcq)
        · have hnone : ∀ q ∈ rest, c ∉ q.2 := by
            intro q hq hcq
            have := huniq q (List.mem_cons_of_mem _ hq) hcq
            rw [this] at hq
            exact hrest hq
          rw [foldl_toarrayStep_frame rest _ r c hnone]
          simp [toarrayStep, hc]
      · have hmem2 : (m0, idx0) ∈ rest := by
          rcases List.mem_cons.mp hmem with heq | h2
          · have : c ∈ p.2 := by
              rw [← heq]
              exact hc
            exact absurd this hcp
          · exact h2
        exact ih _ r c m0 idx0 hmem2 hc
          (fun q hq hcq => huniq q (List.mem_cons_of_mem _ hq) hcq)

/-- Reading the column-stack of several aligned pieces at the position
of a column held by exactly one piece reads that piece. -/
theorem flatten_piece_entry :
    ∀ (P : List ℕ) (colsF : ℕ → List Col) (idxF : ℕ → List ℕ) (c p r : ℕ),
      p ∈ P → c ∈ idxF p →
      (∀ q ∈ P, (colsF q).length = (idxF q).length) →
      (∀ q ∈ P, q ≠ p → c ∉ idxF q) →
      colEntry (((P.map colsF).flatten).getD (((P.map idxF).flatten).indexOf c) []) r
        = colEntry ((colsF p).getD ((idxF p).indexOf c) []) r := by
  intro P
  induction P with
  | nil => intro _ _ _ p _ hp; cases hp
  | cons q rest ih =>
      intro colsF idxF c p r hp hc halign hdisj
      rw [List.map_cons, List.map_cons, List.flatten_cons, List.flatten_cons]
      by_cases hqp : q = p
      · subst hqp
        rw [List.indexOf_append_of_mem hc]
        have hidx : (idxF q).indexOf c < (colsF q).length := by
          rw [halign q (List.mem_cons_self _ _)]
          exact List.indexOf_lt_length.mpr hc
        rw [List.getD_append _ _ _ _ hidx]
      · have hcnotq : c ∉ idxF q := hdisj q (List.mem_cons_self _ _) hqp
        have hp2 : p ∈ rest := by
          rcases List.mem_cons.mp hp with rfl | h2
          · exact absurd rfl hqp
          · exact h2
        rw [List.indexOf_append_of_not_mem hcnotq]
        rw [← halign q (List.mem_cons_self _ _)]
        rw [List.getD_append_right _ _ _ _ (Nat.le_add_right _ _)]
        rw [Nat.add_sub_cancel_left]
        exact ih colsF idxF c p r hp2 hc
          (fun x hx => halign x (List.mem_cons_of_mem _ hx))
          (fun x hx => hdisj x (List.mem_cons_of_mem _ hx))

/-- Membership in the position list of a storage kind. -/
theorem typePositions_mem (k : MatKind) (ms : List SubMat) (i : ℕ) :
    i ∈ typePositions k ms ↔ i < ms.length ∧ (ms.getD i default).kind = k := by
  unfold typePositions
  simp [List.mem_filter, List.mem_range]

/-- The position list of a storage kind is strictly increasing. -/
theorem typePositions_sorted (k : MatKind) (ms : List SubMat) :
    (typePositions k ms).Pairwise (· < ·) :=
  (List.pairwise_lt_range _).filter _

/-- The position list of a storage kind is duplicate-free. -/
theorem typePositions_nodup (k : MatKind) (ms : List SubMat) :
    (typePositions k ms).Nodup :=
  (List.nodup_range _).filter _

/-- `getD` on a single-position update. -/
theorem getD_set_lt {α : Type} [Inhabited α] (l : List α) (p0 : ℕ) (x : α)
    (hp0 : p0 < l.length) (i : ℕ) :
    (l.set p0 x).getD i default = if p0 = i then x else l.getD i default := by
  by_cases hi : i < l.length
  · rw [List.getD_eq_getElem _ _ (by simpa using hi), List.getElem_set]
    by_cases hpi : p0 = i
    · simp [hpi]
    · simp only [hpi, if_false]
      rw [List.getD_eq_getElem _ _ hi]
  · have hge : l.length ≤ i := by omega
    rw [List.getD_eq_default _ _ (by simpa using hge), List.getD_eq_default _ _ hge]
    have hne : ¬ p0 = i := by omega
    simp [hne]

/-- The `getD` pair at an in-range position is a member of the zip. -/
theorem pair_mem_zip (ms : List SubMat) (idxs : List (List ℕ))
    (hlen : ms.length = idxs.length) (i : ℕ) (hi : i < ms.length) :
    (ms.getD i default, idxs.getD i default) ∈ ms.zip idxs := by
  have h2 : i < idxs.length := by omega
  have hiz : i < (ms.zip idxs).length := by
    simp [List.length_zip]
    omega
  have hz : (ms.zip idxs)[i] = (ms.getD i default, idxs.getD i default) := by
    rw [List.getElem_zip, List.getD_eq_getElem _ _ hi, List.getD_eq_getElem _ _ h2]
  exact hz ▸ List.getElem_mem hiz

/-- Membership in a zip of equally long lists, positionally. -/
theorem mem_zip_iff_getD (ms : List SubMat) (idxs : List (List ℕ))
    (hlen : ms.length = idxs.length) (p : SubMat × List ℕ) :
    p ∈ ms.zip idxs
      ↔ ∃ i, i < ms.length ∧ p = (ms.getD i default, idxs.getD i default) := by
  constructor
  · intro hp
    obtain ⟨i, hi, heq⟩ := List.mem_iff_getElem.mp hp
    have him : i < ms.length := by
      simp [List.length_zip] at hi
      omega
    refine ⟨i, him, ?_⟩
    rw [← heq, List.getElem_zip, List.getD_eq_getElem _ _ him,
      List.getD_eq_getElem _ _ (by omega)]
  · rintro ⟨i, hi, rfl⟩
    exact pair_mem_zip ms idxs hlen i hi

/-- The concatenated index arrays of a kind are as long as the
column stack is wide. -/
theorem idxJOf_length (k : MatKind) (ms : List SubMat) (idxs : List (List ℕ))
    (hlen : ms.length = idxs.length)
    (halign : ∀ p ∈ ms.zip idxs, p.2.length = p.1.ncols) :
    (idxJOf k ms idxs).length = (stackedOf k ms).ncols := by
  show (idxJOf k ms idxs).length
      = (((typePositions k ms).map (fun i => (ms.getD i default).cols)).flatten).length
  rw [idxJOf, List.length_flatten, List.length_flatten, List.map_map, List.map_map]
  refine congrArg List.sum (List.map_congr_left ?_)
  intro i hi
  have h1 := (typePositions_mem k ms i).mp hi
  exact halign _ (pair_mem_zip ms idxs hlen i h1.1)

/-- Membership in the concatenated index arrays of a kind. -/
theorem idxJOf_mem (k : MatKind) (ms : List SubMat) (idxs : List (List ℕ)) (c : ℕ) :
    c ∈ idxJOf k ms idxs ↔ ∃ q ∈ typePositions k ms, c ∈ idxs.getD q [] := by
  simp [idxJOf, List.mem_flatten]

/-- Pairwise-disjoint index lists are disjoint at distinct positions. -/
theorem disjoint_getD_of_pairwise (idxs : List (List ℕ))
    (hdisj : List.Pairwise List.Disjoint idxs) (i j : ℕ)
    (hi : i < idxs.length) (hj : j < idxs.length) (hne : i ≠ j) :
    List.Disjoint (idxs.getD i default) (idxs.getD j default) := by
  rw [List.getD_eq_getElem _ _ hi, List.getD_eq_getElem _ _ hj]
  rcases Nat.lt_or_ge i j with hlt | hge
  · exact List.pairwise_iff_getElem.mp hdisj i j hi hj hlt
  · exact (List.pairwise_iff_getElem.mp hdisj j i hj hi (by omega)).symm

/-- The concatenated index arrays of a kind are duplicate-free when the
original index lists are duplicate-free and pairwise disjoint. -/
theorem idxJOf_nodup (k : MatKind) (ms : List SubMat) (idxs : List (List ℕ))
    (hlen : ms.length = idxs.length)
    (hndI : ∀ l ∈ idxs, l.Nodup) (hdisjI : List.Pairwise List.Disjoint idxs) :
    (idxJOf k ms idxs).Nodup := by
  rw [idxJOf, List.nodup_flatten]
  constructor
  · intro l hl
    obtain ⟨q, hq, rfl⟩ := List.mem_map.mp hl
    have hql : q < idxs.length := by
      have := (typePositions_mem k ms q).mp hq
      omega
    rw [List.getD_eq_getElem _ _ hql]
    exact hndI _ (List.getElem_mem hql)
  · rw [List.pairwise_map]
    refine (typePositions_sorted k ms).imp_of_mem ?_
    intro a b ha hb hab
    have hal : a < idxs.length := by
      have := (typePositions_mem k ms a).mp ha
      omega
    have hbl : b < idxs.length := by
      have := (typePositions_mem k ms b).mp hb
      omega
    exact disjoint_getD_of_pairwise idxs hdisjI a b hal hbl (by omega)

/-- The concatenated index arrays of a kind are disjoint from any index
list at a position not of that kind. -/
theorem idxJOf_disjoint_getD (k : MatKind) (ms : List SubMat) (idxs : List (List ℕ))
    (hlen : ms.length = idxs.length)
    (hdisjI : List.Pairwise List.Disjoint idxs) (j : ℕ)
    (hj : j < idxs.length) (hjpos : j ∉ typePositions k ms) :
    List.Disjoint (idxJOf k ms idxs) (idxs.getD j default) := by
  intro c hc hcj
  obtain ⟨q, hq, hcq⟩ := (idxJOf_mem k ms idxs c).mp hc
  have hql : q < idxs.length := by
    have := (typePositions_mem k ms q).mp hq
    omega
  have hne : q ≠ j := fun he => hjpos (he ▸ hq)
  exact disjoint_getD_of_pairwise idxs hdisjI q j hql hj hne hcq hcj

/-- A duplicate-free list all of whose elements coincide has at most one
element. -/
theorem length_le_one_of_forall_eq {l : List ℕ} (hnd : l.Nodup)
    (h : ∀ x ∈ l, ∀ y ∈ l, x = y) : l.length ≤ 1 := by
  cases l with
  | nil => simp
  | cons a t =>
      cases t with
      | nil => simp
      | cons b t2 =>
          have hab : a = b := h a (by simp) b (by simp)
          rw [List.nodup_cons] at hnd
          exact absurd (hab ▸ List.mem_cons_self b t2) hnd.1

/-- The kind-position list counts the sub-matrices of that kind. -/
theorem typePositions_length_filter (k : MatKind) (ms : List SubMat) :
    (typePositions k ms).length
      = (ms.filter (fun m => decide (m.kind = k))).length := by
  conv_rhs => rw [← map_getD_range ms]
  rw [List.filter_map, List.length_map]
  rfl

/-- Structure of a combining pass in the merging case. -/
theorem combinePass_eq_merged (k : MatKind) (ms : List SubMat) (idxs : List (List ℕ))
    (p0 : ℕ) (ptail : List ℕ) (hposEq : typePositions k ms = p0 :: ptail)
    (hpos : 1 < (typePositions k ms).length) :
    combinePass k (ms, idxs)
      = (removeIdxs (ms.set p0 (stackedOf k ms)) ptail,
         removeIdxs (idxs.set p0 (idxJOf k ms idxs)) ptail) := by
  have hpos' : 1 < (p0 :: ptail).length := hposEq ▸ hpos
  simp only [combinePass, hposEq, if_pos hpos', List.headD_cons,
    List.drop_succ_cons, List.drop_zero]

/-- The merged lists stay equally long. -/
theorem mergedLen (k : MatKind) (ms : List SubMat) (idxs : List (List ℕ))
    (p0 : ℕ) (ptail : List ℕ) (hlen : ms.length = idxs.length) :
    (removeIdxs (ms.set p0 (stackedOf k ms)) ptail).length
      = (removeIdxs (idxs.set p0 (idxJOf k ms idxs)) ptail).length := by
  simp [removeIdxs, List.length_set, hlen]

/-- The merged index lists stay aligned with the merged sub-matrix
widths. -/
theorem mergedAlign (k : MatKind) (ms : List SubMat) (idxs : List (List ℕ))
    (p0 : ℕ) (ptail : List ℕ) (hposEq : typePositions k ms = p0 :: ptail)
    (hlen : ms.length = idxs.length)
    (halign : ∀ p ∈ ms.zip idxs, p.2.length = p.1.ncols) :
    ∀ p ∈ (removeIdxs (ms.set p0 (stackedOf k ms)) ptail).zip
        (removeIdxs (idxs.set p0 (idxJOf k ms idxs)) ptail),
      p.2.length = p.1.ncols := by
  have hp0 : p0 < ms.length ∧ (ms.getD p0 default).kind = k :=
    (typePositions_mem k ms p0).mp (hposEq ▸ List.mem_cons_self _ _)
  intro p hp
  rw [zip_removeIdxs _ _ _ (by rw [List.length_set, List.length_set]; exact hlen),
    List.length_set] at hp
  obtain ⟨i, hif, rfl⟩ := List.mem_map.mp hp
  have h2 := List.mem_filter.mp hif
  have hi : i < ms.length := List.mem_range.mp h2.1
  rw [getD_set_lt ms p0 _ hp0.1 i, getD_set_lt idxs p0 _ (by omega) i]
  by_cases hip : p0 = i
  · simp only [if_pos hip]
    exact idxJOf_length k ms idxs hlen halign
  · simp only [if_neg hip]
    exact halign _ (pair_mem_zip ms idxs hlen i hi)

/-- Every merged sub-matrix keeps the shared row count. -/
theorem mergedNrows (k : MatKind) (ms : List SubMat)
    (p0 : ℕ) (ptail : List ℕ) (nrow : ℕ)
    (hposEq : typePositions k ms = p0 :: ptail)
    (hnrows : ∀ m ∈ ms, m.nrows = nrow) :
    ∀ m ∈ removeIdxs (ms.set p0 (stackedOf k ms)) ptail, m.nrows = nrow := by
  have hp0 : p0 < ms.length ∧ (ms.getD p0 default).kind = k :=
    (typePositions_mem k ms p0).mp (hposEq ▸ List.mem_cons_self _ _)
  have hgetD_ms : ∀ i, i < ms.length → ms.getD i default ∈ ms := by
    intro i hi
    rw [List.getD_eq_getElem _ _ hi]
    exact List.getElem_mem hi
  have hstkrows : (stackedOf k ms).nrows = nrow := by
    show (ms.getD ((typePositions k ms).headD 0) default).nrows = nrow
    rw [hposEq, List.headD_cons]
    exact hnrows _ (hgetD_ms p0 hp0.1)
  intro m hm
  rw [mem_removeIdxs, List.length_set] at hm
  obtain ⟨i, hi, hint, heq⟩ := hm
  rw [getD_set_lt ms p0 _ hp0.1 i] at heq
  by_cases hip : p0 = i
  · rw [if_pos hip] at heq
    rw [← heq]
    exact hstkrows
  · rw [if_neg hip] at heq
    rw [← heq]
    exact hnrows _ (hgetD_ms i hi)

/-- Every merged sub-matrix keeps well-formed column lengths. -/
theorem mergedWf (k : MatKind) (ms : List SubMat)
    (p0 : ℕ) (ptail : List ℕ) (nrow : ℕ)
    (hposEq : typePositions k ms = p0 :: ptail)
    (hnrows : ∀ m ∈ ms, m.nrows = nrow)
    (hwf : ∀ m ∈ ms, ∀ cl ∈ m.cols, cl.length = m.nrows) :
    ∀ m ∈ removeIdxs (ms.set p0 (stackedOf k ms)) ptail,
      ∀ cl ∈ m.cols, cl.length = m.nrows := by
  have hp0 : p0 < ms.length ∧ (ms.getD p0 default).kind = k :=
    (typePositions_mem k ms p0).mp (hposEq ▸ List.mem_cons_self _ _)
  have hgetD_ms : ∀ i, i < ms.length → ms.getD i default ∈ ms := by
    intro i hi
    rw [List.getD_eq_getElem _ _ hi]
    exact List.getElem_mem hi
  have hstkrows : (stackedOf k ms).nrows = nrow := by
    show (ms.getD ((typePositions k ms).headD 0) default).nrows = nrow
    rw [hposEq, List.headD_cons]
    exact hnrows _ (hgetD_ms p0 hp0.1)
  intro m hm
  rw [mem_removeIdxs, List.length_set] at hm
  obtain ⟨i, hi, hint, heq⟩ := hm
  rw [getD_set_lt ms p0 _ hp0.1 i] at heq
  by_cases hip : p0 = i
  · rw [if_pos hip] at heq
    subst heq
    intro cl hcl
    have hcl2 : cl ∈ ((typePositions k ms).map (fun q => (ms.getD q default).cols)).flatten :=
      hcl
    obtain ⟨part, hpart, hclp⟩ := List.mem_flatten.mp hcl2
    obtain ⟨q, hq, rfl⟩ := List.mem_map.mp hpart
    have hql : q < ms.length := ((typePositions_mem k ms q).mp hq).1
    have hmq : ms.getD q default ∈ ms := hgetD_ms q hql
    rw [hwf _ hmq cl hclp, hnrows _ hmq, hstkrows]
  · rw [if_neg hip] at heq
    subst heq
    exact hwf _ (hgetD_ms i hi)

/-- The merged index lists still concatenate to a permutation of the
global column range. -/
theorem mergedPerm (k : MatKind) (ms : List SubMat) (idxs : List (List ℕ))
    (p0 : ℕ) (ptail : List ℕ) (ncol : ℕ)
    (hposEq : typePositions k ms = p0 :: ptail)
    (hlen : ms.length = idxs.length)
    (hperm : idxs.flatten.Perm (List.range ncol)) :
    (removeIdxs (idxs.set p0 (idxJOf k ms idxs)) ptail).flatten.Perm
      (List.range ncol) := by
  have hp0 : p0 < ms.length ∧ (ms.getD p0 default).kind = k :=
    (typePositions_mem k ms p0).mp (hposEq ▸ List.mem_cons_self _ _)
  have hp0i : p0 < idxs.length := by omega
  have hflatnd : idxs.flatten.Nodup := hperm.nodup_iff.mpr (List.nodup_range _)
  obtain ⟨hndI, hdisjI⟩ := List.nodup_flatten.mp hflatnd
  have hsort : (p0 :: ptail).Pairwise (· < ·) := hposEq ▸ typePositions_sorted k ms
  have hp0tail : ∀ x ∈ ptail, p0 < x := (List.pairwise_cons.mp hsort).1
  have hp0nt : p0 ∉ ptail := fun h => absurd (hp0tail p0 h) (lt_irrefl p0)
  have hI'eq : removeIdxs (idxs.set p0 (idxJOf k ms idxs)) ptail
      = ((List.range idxs.length).filter (fun i => decide (i ∉ ptail))).map
          (fun i => if p0 = i then idxJOf k ms idxs else idxs.getD i default) := by
    rw [removeIdxs, List.length_set]
    refine List.map_congr_left ?_
    intro i _
    exact getD_set_lt idxs p0 _ hp0i i
  have hmemI : ∀ c, c ∈ (removeIdxs (idxs.set p0 (idxJOf k ms idxs)) ptail).flatten
      ↔ c ∈ idxs.flatten := by
    intro c
    rw [hI'eq]
    simp only [List.mem_flatten, List.mem_map, List.mem_filter, List.mem_range,
      decide_eq_true_eq]
    constructor
    · rintro ⟨part, ⟨i, ⟨hi, hint⟩, rfl⟩, hc⟩
      by_cases hip : p0 = i
      · rw [if_pos hip] at hc
        obtain ⟨q, hq, hcq⟩ := (idxJOf_mem k ms idxs c).mp hc
        have hql : q < idxs.length := by
          have := (typePositions_mem k ms q).mp hq
          omega
        refine ⟨idxs.getD q [], ?_, hcq⟩
        rw [List.getD_eq_getElem _ _ hql]
        exact List.getElem_mem hql
      · rw [if_neg hip] at hc
        refine ⟨idxs.getD i default, ?_, hc⟩
        rw [List.getD_eq_getElem _ _ hi]
        exact List.getElem_mem hi
    · rintro ⟨l, hl, hcl⟩
      obtain ⟨j, hj, rfl⟩ := List.mem_iff_getElem.mp hl
      by_cases hjpos : j ∈ typePositions k ms
      · refine ⟨idxJOf k ms idxs, ⟨p0, ⟨hp0i, hp0nt⟩, by simp⟩, ?_⟩
        refine (idxJOf_mem k ms idxs c).mpr ⟨j, hjpos, ?_⟩
        rw [List.getD_eq_getElem _ _ hj]
        exact hcl
      · have hjp0 : p0 ≠ j :=
          fun he => hjpos (he ▸ (hposEq ▸ List.mem_cons_self p0 ptail))
        have hjnt : j ∉ ptail :=
          fun hmem => hjpos (hposEq ▸ List.mem_cons_of_mem _ hmem)
        refine ⟨idxs.getD j default, ⟨j, ⟨hj, hjnt⟩, by rw [if_neg hjp0]⟩, ?_⟩
        rw [List.getD_eq_getElem _ _ hj]
        exact hcl
  have hnd' : (removeIdxs (idxs.set p0 (idxJOf k ms idxs)) ptail).flatten.Nodup := by
    rw [hI'eq, List.nodup_flatten]
    constructor
    · intro l hl
      obtain ⟨i, hif, rfl⟩ := List.mem_map.mp hl
      have h2 := List.mem_filter.mp hif
      have hi : i < idxs.length := List.mem_range.mp h2.1
      by_cases hip : p0 = i
      · rw [if_pos hip]
        exact idxJOf_nodup k ms idxs hlen hndI hdisjI
      · rw [if_neg hip, List.getD_eq_getElem _ _ hi]
        exact hndI _ (List.getElem_mem hi)
    · rw [List.pairwise_map]
      refine ((List.pairwise_lt_range _).filter _).imp_of_mem ?_
      intro a b ha hb hab
      have ha2 := List.mem_filter.mp ha
      have hb2 := List.mem_filter.mp hb
      have hal : a < idxs.length := List.mem_range.mp ha2.1
      have hbl : b < idxs.length := List.mem_range.mp hb2.1
      have hant : a ∉ ptail := of_decide_eq_true ha2.2
      have hbnt : b ∉ ptail := of_decide_eq_true hb2.2
      by_cases hap : p0 = a
      · subst hap
        rw [if_pos rfl]
        by_cases hbp : p0 = b
        · omega
        · rw [if_neg hbp]
          refine idxJOf_disjoint_getD k ms idxs hlen hdisjI b hbl ?_
          intro hbpos
          rw [hposEq] at hbpos
          rcases List.mem_cons.mp hbpos with he | ht
          · exact hbp he.symm
          · exact hbnt ht
      · rw [if_neg hap]
        by_cases hbp : p0 = b
        · rw [if_pos hbp]
          refine (idxJOf_disjoint_getD k ms idxs hlen hdisjI a hal ?_).symm
          intro hapos
          rw [hposEq] at hapos
          rcases List.mem_cons.mp hapos with he | ht
          · exact hap he.symm
          · exact hant ht
        · rw [if_neg hbp]
          exact disjoint_getD_of_pairwise idxs hdisjI a b hal hbl (by omega)
  exact (List.perm_ext_iff_of_nodup hnd' (List.nodup_range _)).mpr
    fun c => (hmemI c).trans hperm.mem_iff

/-- The merged composition scatters to the same dense array at every
valid global column. -/
theorem mergedScatter (k : MatKind) (nrow ncol : ℕ) (ms : List SubMat)
    (idxs : List (List ℕ)) (p0 : ℕ) (ptail : List ℕ)
    (hposEq : typePositions k ms = p0 :: ptail)
    (hlen : ms.length = idxs.length)
    (halign : ∀ p ∈ ms.zip idxs, p.2.length = p.1.ncols)
    (hperm : idxs.flatten.Perm (List.range ncol))
    (hnrows : ∀ m ∈ ms, m.nrows = nrow)
    (hwf : ∀ m ∈ ms, ∀ cl ∈ m.cols, cl.length = m.nrows)
    (r c : ℕ) (hc : c < ncol) :
    ((removeIdxs (ms.set p0 (stackedOf k ms)) ptail).zip
        (removeIdxs (idxs.set p0 (idxJOf k ms idxs)) ptail)).foldl
      toarrayStep (fun _ _ => 0) r c
      = (ms.zip idxs).foldl toarrayStep (fun _ _ => 0) r c := by
  have hp0 : p0 < ms.length ∧ (ms.getD p0 default).kind = k :=
    (typePositions_mem k ms p0).mp (hposEq ▸ List.mem_cons_self _ _)
  have hp0i : p0 < idxs.length := by omega
  have hsort : (p0 :: ptail).Pairwise (· < ·) := hposEq ▸ typePositions_sorted k ms
  have hp0nt : p0 ∉ ptail :=
    fun h => absurd ((List.pairwise_cons.mp hsort).1 p0 h) (lt_irrefl p0)
  have hval0 : (SplitMat.mk nrow ncol .f64 ms idxs).valid :=
    ⟨hlen, hnrows, halign, hperm, hwf⟩
  have hOW : ∃ ow, ow < idxs.length ∧ c ∈ idxs.getD ow default ∧
      ∀ j, j < idxs.length → c ∈ idxs.getD j default → j = ow := by
    refine ⟨(SplitMat.mk nrow ncol .f64 ms idxs).own c,
      (own_spec _ hval0 c hc).1, (own_spec _ hval0 c hc).2, ?_⟩
    exact fun j hj hcj => own_unique _ hval0 c hc j hj hcj
  obtain ⟨ow, how_lt, how_mem, huniq0⟩ := hOW
  have hrhs : (ms.zip idxs).foldl toarrayStep (fun _ _ => 0) r c
      = (ms.getD ow default).entry r ((idxs.getD ow default).indexOf c) := by
    refine foldl_toarrayStep_mem _ _ r c _ _
      (pair_mem_zip ms idxs hlen ow (by omega)) how_mem ?_
    intro p hp hcp
    obtain ⟨j, hj, rfl⟩ := (mem_zip_iff_getD ms idxs hlen p).mp hp
    have hj2 : j = ow := huniq0 j (by omega) hcp
    rw [hj2]
  have hzip : (removeIdxs (ms.set p0 (stackedOf k ms)) ptail).zip
      (removeIdxs (idxs.set p0 (idxJOf k ms idxs)) ptail)
      = ((List.range ms.length).filter (fun i => decide (i ∉ ptail))).map
          (fun i => ((ms.set p0 (stackedOf k ms)).getD i default,
            (idxs.set p0 (idxJOf k ms idxs)).getD i default)) := by
    rw [zip_removeIdxs _ _ _ (by rw [List.length_set, List.length_set]; exact hlen),
      List.length_set]
  have hpairmem : ∀ p, p ∈ (removeIdxs (ms.set p0 (stackedOf k ms)) ptail).zip
      (removeIdxs (idxs.set p0 (idxJOf k ms idxs)) ptail)
      ↔ ∃ i, i < ms.length ∧ i ∉ ptail ∧
          p = (if p0 = i then stackedOf k ms else ms.getD i default,
               if p0 = i then idxJOf k ms idxs else idxs.getD i default) := by
    intro p
    rw [hzip]
    simp only [List.mem_map, List.mem_filter, List.mem_range, decide_eq_true_eq]
    constructor
    · rintro ⟨i, ⟨hi, hint⟩, rfl⟩
      exact ⟨i, hi, hint,
        by rw [getD_set_lt ms p0 _ hp0.1 i, getD_set_lt idxs p0 _ hp0i i]⟩
    · rintro ⟨i, hi, hint, rfl⟩
      exact ⟨i, ⟨hi, hint⟩,
        by rw [getD_set_lt ms p0 _ hp0.1 i, getD_set_lt idxs p0 _ hp0i i]⟩
  rw [hrhs]
  by_cases howpos : ow ∈ typePositions k ms
  · refine (foldl_toarrayStep_mem _ _ r c (stackedOf k ms) (idxJOf k ms idxs)
      ((hpairmem _).mpr ⟨p0, hp0.1, hp0nt, by simp⟩)
      ((idxJOf_mem k ms idxs c).mpr ⟨ow, howpos, how_mem⟩) ?_).trans ?_
    · intro p hp hcp
      obtain ⟨i, hi, hint, rfl⟩ := (hpairmem p).mp hp
      by_cases hip : p0 = i
      · simp [hip]
      · have hcp2 : c ∈ idxs.getD i default := by
          have h3 : c ∈ (if p0 = i then idxJOf k ms idxs else idxs.getD i default) := hcp
          rwa [if_neg hip] at h3
        have hiow : i = ow := huniq0 i (by omega) hcp2
        have hipos : i ∈ typePositions k ms := hiow ▸ howpos
        rw [hposEq] at hipos
        rcases List.mem_cons.mp hipos with he | ht
        · exact absurd he.symm hip
        · exact absurd ht hint
    · refine flatten_piece_entry (typePositions k ms)
        (fun q => (ms.getD q default).cols) (fun q => idxs.getD q []) c ow r howpos
        how_mem ?_ ?_
      · intro q hq
        have hql := ((typePositions_mem k ms q).mp hq).1
        exact (halign _ (pair_mem_zip ms idxs hlen q hql)).symm
      · intro q hq hqow hcq
        have hql : q < idxs.length := by
          have := (typePositions_mem k ms q).mp hq
          omega
        exact hqow (huniq0 q hql hcq)
  · have howp0 : p0 ≠ ow :=
      fun he => howpos (he ▸ (hposEq ▸ List.mem_cons_self p0 ptail))
    have hownt : ow ∉ ptail :=
      fun hmem => howpos (hposEq ▸ List.mem_cons_of_mem _ hmem)
    refine foldl_toarrayStep_mem _ _ r c _ _
      ((hpairmem _).mpr ⟨ow, by omega, hownt, by simp only [if_neg howp0]⟩)
      how_mem ?_
    intro p hp hcp
    obtain ⟨i, hi, hint, rfl⟩ := (hpairmem p).mp hp
    by_cases hip : p0 = i
    · have hcp2 : c ∈ idxJOf k ms idxs := by
        have h3 : c ∈ (if p0 = i then idxJOf k ms idxs else idxs.getD i default) := hcp
        rwa [if_pos hip] at h3
      obtain ⟨q, hq, hcq⟩ := (idxJOf_mem k ms idxs c).mp hcp2
      have hql : q < idxs.length := by
        have := (typePositions_mem k ms q).mp hq
        omega
      have : q = ow := huniq0 q hql hcq
      exact absurd (this ▸ hq) howpos
    · have hcp2 : c ∈ idxs.getD i default := by
        have h3 : c ∈ (if p0 = i then idxJOf k ms idxs else idxs.getD i default) := hcp
        rwa [if_neg hip] at h3
      have hiow : i = ow := huniq0 i (by omega) hcp2
      rw [hiow]
      simp only [if_neg howp0]

/-- After a merging pass at most one sub-matrix of the merged kind
remains. -/
theorem mergedCount (k : MatKind) (ms : List SubMat) (p0 : ℕ) (ptail : List ℕ)
    (hposEq : typePositions k ms = p0 :: ptail) :
    (typePositions k (removeIdxs (ms.set p0 (stackedOf k ms)) ptail)).length ≤ 1 := by
  have hp0 : p0 < ms.length ∧ (ms.getD p0 default).kind = k :=
    (typePositions_mem k ms p0).mp (hposEq ▸ List.mem_cons_self _ _)
  have hM'eq : removeIdxs (ms.set p0 (stackedOf k ms)) ptail
      = ((List.range ms.length).filter (fun i => decide (i ∉ ptail))).map
          (fun i => if p0 = i then stackedOf k ms else ms.getD i default) := by
    rw [removeIdxs, List.length_set]
    exact List.map_congr_left fun i _ => getD_set_lt ms p0 _ hp0.1 i
  have hchar : ∀ j, j ∈ typePositions k (removeIdxs (ms.set p0 (stackedOf k ms)) ptail) →
      ∃ hj : j < ((List.range ms.length).filter (fun i => decide (i ∉ ptail))).length,
        ((List.range ms.length).filter (fun i => decide (i ∉ ptail)))[j] = p0 := by
    intro j hj
    obtain ⟨hjl, hjk⟩ := (typePositions_mem _ _ j).mp hj
    rw [hM'eq, List.length_map] at hjl
    rw [hM'eq, getD_map_lt _ _ j hjl default] at hjk
    refine ⟨hjl, ?_⟩
    set q := ((List.range ms.length).filter (fun i => decide (i ∉ ptail)))[j] with hqdef
    have hqmem := List.getElem_mem hjl
    rw [← hqdef] at hqmem
    have h2 := List.mem_filter.mp hqmem
    have hqnt : q ∉ ptail := of_decide_eq_true h2.2
    by_cases hqp : p0 = q
    · exact hqp.symm
    · rw [if_neg hqp] at hjk
      have hqpos : q ∈ typePositions k ms :=
        (typePositions_mem k ms q).mpr ⟨List.mem_range.mp h2.1, hjk⟩
      rw [hposEq] at hqpos
      rcases List.mem_cons.mp hqpos with he | ht
      · exact absurd he.symm hqp
      · exact absurd ht hqnt
  refine length_le_one_of_forall_eq (typePositions_nodup _ _) ?_
  intro x hx y hy
  obtain ⟨hxl, hxp⟩ := hchar x hx
  obtain ⟨hyl, hyp⟩ := hchar y hy
  exact (List.Nodup.getElem_inj_iff ((List.nodup_range _).filter _)).mp
    (hxp.trans hyp.symm)

/-- A merging pass leaves the sub-matrices of every other kind exactly
in place. -/
theorem mergedFilter (k : MatKind) (ms : List SubMat) (p0 : ℕ) (ptail : List ℕ)
    (hposEq : typePositions k ms = p0 :: ptail) (k2 : MatKind) (hk2 : k2 ≠ k) :
    (removeIdxs (ms.set p0 (stackedOf k ms)) ptail).filter
        (fun m => decide (m.kind = k2))
      = ms.filter (fun m => decide (m.kind = k2)) := by
  have hp0 : p0 < ms.length ∧ (ms.getD p0 default).kind = k :=
    (typePositions_mem k ms p0).mp (hposEq ▸ List.mem_cons_self _ _)
  have hptail : ∀ x ∈ ptail, x < ms.length ∧ (ms.getD x default).kind = k :=
    fun x hx => (typePositions_mem k ms x).mp (hposEq ▸ List.mem_cons_of_mem _ hx)
  have hM'eq : removeIdxs (ms.set p0 (stackedOf k ms)) ptail
      = ((List.range ms.length).filter (fun i => decide (i ∉ ptail))).map
          (fun i => if p0 = i then stackedOf k ms else ms.getD i default) := by
    rw [removeIdxs, List.length_set]
    exact List.map_congr_left fun i _ => getD_set_lt ms p0 _ hp0.1 i
  rw [hM'eq, List.filter_map]
  conv_rhs => rw [← map_getD_range ms, List.filter_map]
  have hfe : ((List.range ms.length).filter (fun i => decide (i ∉ ptail))).filter
        ((fun m => decide (m.kind = k2))
          ∘ (fun i => if p0 = i then stackedOf k ms else ms.getD i default))
      = (List.range ms.length).filter
        ((fun m => decide (m.kind = k2)) ∘ (fun i => ms.getD i default)) := by
    rw [List.filter_filter]
    refine List.filter_congr ?_
    intro i _
    simp only [Function.comp_apply]
    by_cases hmemt : i ∈ ptail
    · have hkind := (hptail i hmemt).2
      have e2 : ¬ (ms.getD i default).kind = k2 := by
        rw [hkind]
        exact fun h => hk2 h.symm
      rw [decide_eq_false (not_not_intro hmemt), Bool.and_false, decide_eq_false e2]
    · by_cases hip : p0 = i
      · have hmk : (ms.getD i default).kind = k := hip ▸ hp0.2
        have e1 : ¬ ((if p0 = i then stackedOf k ms
            else ms.getD i default).kind = k2) := by
          rw [if_pos hip]
          exact fun h => hk2 h.symm
        have e2 : ¬ (ms.getD i default).kind = k2 := by
          rw [hmk]
          exact fun h => hk2 h.symm
        rw [decide_eq_true hmemt, Bool.and_true, decide_eq_false e1,
          decide_eq_false e2]
      · rw [decide_eq_true hmemt, Bool.and_true, if_neg hip]
  rw [hfe]
  refine List.map_congr_left ?_
  intro i hi
  have h2 := List.mem_filter.mp hi
  have hPk : (ms.getD i default).kind = k2 := by simpa using h2.2
  have hip : p0 ≠ i := by
    intro he
    have hk : (ms.getD i default).kind = k := he ▸ hp0.2
    exact hk2 (hPk ▸ hk)
  rw [if_neg hip]

/-- One combining pass preserves every construction invariant, the
scattered dense array, and the sub-matrices of every other kind, and
leaves at most one sub-matrix of its own kind. -/
theorem combinePass_preserves (k : MatKind) (nrow ncol : ℕ)
    (ms : List SubMat) (idxs : List (List ℕ))
    (hlen : ms.length = idxs.length)
    (halign : ∀ p ∈ ms.zip idxs, p.2.length = p.1.ncols)
    (hperm : idxs.flatten.Perm (List.range ncol))
    (hnrows : ∀ m ∈ ms, m.nrows = nrow)
    (hwf : ∀ m ∈ ms, ∀ cl ∈ m.cols, cl.length = m.nrows) :
    (combinePass k (ms, idxs)).1.length = (combinePass k (ms, idxs)).2.length
    ∧ (∀ p ∈ (combinePass k (ms, idxs)).1.zip (combinePass k (ms, idxs)).2,
        p.2.length = p.1.ncols)
    ∧ (combinePass k (ms, idxs)).2.flatten.Perm (List.range ncol)
    ∧ (∀ m ∈ (combinePass k (ms, idxs)).1, m.nrows = nrow)
    ∧ (∀ m ∈ (combinePass k (ms, idxs)).1, ∀ cl ∈ m.cols, cl.length = m.nrows)
    ∧ (∀ r c, c < ncol →
        ((combinePass k (ms, idxs)).1.zip (combinePass k (ms, idxs)).2).foldl
            toarrayStep (fun _ _ => 0) r c
          = (ms.zip idxs).foldl toarrayStep (fun _ _ => 0) r c)
    ∧ (typePositions k (combinePass k (ms, idxs)).1).length ≤ 1
    ∧ (∀ k2 : MatKind, k2 ≠ k →
        (combinePass k (ms, idxs)).1.filter (fun m => decide (m.kind = k2))
          = ms.filter (fun m => decide (m.kind = k2))) := by
  by_cases hpos : 1 < (typePositions k ms).length
  · obtain ⟨p0, ptail, hposEq⟩ : ∃ p0 ptail, typePositions k ms = p0 :: ptail := by
      cases h : typePositions k ms with
      | nil =>
          rw [h] at hpos
          simp at hpos
      | cons a t => exact ⟨a, t, rfl⟩
    rw [combinePass_eq_merged k ms idxs p0 ptail hposEq hpos]
    exact ⟨mergedLen k ms idxs p0 ptail hlen,
      mergedAlign k ms idxs p0 ptail hposEq hlen halign,
      mergedPerm k ms idxs p0 ptail ncol hposEq hlen hperm,
      mergedNrows k ms p0 ptail nrow hposEq hnrows,
      mergedWf k ms p0 ptail nrow hposEq hnrows hwf,
      fun r c hc =>
        mergedScatter k nrow ncol ms idxs p0 ptail hposEq hlen halign hperm
          hnrows hwf r c hc,
      mergedCount k ms p0 ptail hposEq,
      fun k2 hk2 => mergedFilter k ms p0 ptail hposEq k2 hk2⟩
  · have hskip : combinePass k (ms, idxs) = (ms, idxs) := by
      simp only [combinePass]
      rw [if_neg hpos]
    rw [hskip]
    exact ⟨hlen, halign, hperm, hnrows, hwf, fun _ _ _ => rfl,
      (by omega : (typePositions k ms).length ≤ 1), fun _ _ => rfl⟩

/-- C6: on every validly composed sub-matrix list, `combine_matrices`
(one dense pass then one sparse pass, each column-stacking its kind and
concatenating the index arrays in encounter order) yields a composition
that is again valid for the same shape, whose `toarray` agrees with the
unmerged composition at every global column, whose dense reference
sandwich results therefore also agree, that leaves every categorical
sub-matrix exactly in place (never merged), and that holds at most one
dense and at most one sparse sub-matrix. -/
theorem combine_matrices_equiv (nrow ncol : ℕ) (dt : Dtype)
    (ms : List SubMat) (idxs : List (List ℕ))
    (hval : (SplitMat.mk nrow ncol dt ms idxs).valid) :
    (SplitMat.mk nrow ncol dt (combineMatrices ms idxs).1
        (combineMatrices ms idxs).2).valid
    ∧ (∀ r c, c < ncol →
        (SplitMat.mk nrow ncol dt (combineMatrices ms idxs).1
            (combineMatrices ms idxs).2).toarrayFun r c
          = (SplitMat.mk nrow ncol dt ms idxs).toarrayFun r c)
    ∧ (∀ (d : List ℚ) (rows? : Option (List ℕ)) (cv : List ℕ) (a b : ℕ),
        (∀ x ∈ cv, x < ncol) → a < cv.length → b < cv.length →
        sandRef (SplitMat.mk nrow ncol dt (combineMatrices ms idxs).1
            (combineMatrices ms idxs).2) d rows? cv a b
          = sandRef (SplitMat.mk nrow ncol dt ms idxs) d rows? cv a b)
    ∧ (combineMatrices ms idxs).1.filter (fun m => decide (m.kind = .cat))
        = ms.filter (fun m => decide (m.kind = .cat))
    ∧ (typePositions .dense (combineMatrices ms idxs).1).length ≤ 1
    ∧ (typePositions .sparse (combineMatrices ms idxs).1).length ≤ 1 := by
  obtain ⟨hlen, hnrows, halign, hperm, hwf⟩ := hval
  obtain ⟨h1len, h1align, h1perm, h1nrows, h1wf, h1scat, h1cnt, h1filt⟩ :=
    combinePass_preserves .dense nrow ncol ms idxs hlen halign hperm hnrows hwf
  have hpair : combinePass .sparse ((combinePass .dense (ms, idxs)).1,
      (combinePass .dense (ms, idxs)).2) = combineMatrices ms idxs := rfl
  obtain ⟨h2len, h2align, h2perm, h2nrows, h2wf, h2scat, h2cnt, h2filt⟩ :=
    combinePass_preserves .sparse nrow ncol (combinePass .dense (ms, idxs)).1
      (combinePass .dense (ms, idxs)).2 h1len h1align h1perm h1nrows h1wf
  rw [hpair] at h2len h2align h2perm h2nrows h2wf h2scat h2cnt h2filt
  have htoa : ∀ r c, c < ncol →
      ((combineMatrices ms idxs).1.zip (combineMatrices ms idxs).2).foldl
          toarrayStep (fun _ _ => 0) r c
        = (ms.zip idxs).foldl toarrayStep (fun _ _ => 0) r c :=
    fun r c hc => (h2scat r c hc).trans (h1scat r c hc)
  refine ⟨⟨h2len, h2nrows, h2align, h2perm, h2wf⟩, htoa, ?_, ?_, ?_, h2cnt⟩
  · intro d rows? cv a b hcv ha hb
    unfold sandRef
    refine wsum_congr _ _ ?_ ?_
    · intro r
      exact htoa r (cv.getD a 0) (hcv _ (getD_mem ha))
    · intro r
      exact htoa r (cv.getD b 0) (hcv _ (getD_mem hb))
  · exact (h2filt .cat (by decide)).trans (h1filt .cat (by decide))
  · rw [typePositions_length_filter, h2filt .dense (by decide),
      ← typePositions_length_filter]
    exact h1cnt

/-- A concrete composition with two mergeable dense sub-matrices and a
categorical one between them. -/
def c6Mats : List SubMat :=
  [⟨.dense, 2, [[1, 2]], .f64⟩, ⟨.cat, 2, [[1, 0]], .f64⟩, ⟨.dense, 2, [[3, 4]], .f64⟩]

/-- The index partition of the concrete composition. -/
def c6Idxs : List (List ℕ) := [[0], [2], [1]]

/-- Witness for C6: the concrete three-component composition is valid,
so the theorem applies; the merged composition is valid, agrees with
the unmerged one on a sample `toarray` entry, keeps the categorical
sub-matrix in place, and holds at most one dense sub-matrix. -/
theorem combine_matrices_equiv_witness :
    (SplitMat.mk 2 3 Dtype.f64 c6Mats c6Idxs).valid
    ∧ (SplitMat.mk 2 3 Dtype.f64 (combineMatrices c6Mats c6Idxs).1
        (combineMatrices c6Mats c6Idxs).2).valid
    ∧ (SplitMat.mk 2 3 Dtype.f64 (combineMatrices c6Mats c6Idxs).1
        (combineMatrices c6Mats c6Idxs).2).toarrayFun 0 1
      = (SplitMat.mk 2 3 Dtype.f64 c6Mats c6Idxs).toarrayFun 0 1
    ∧ (combineMatrices c6Mats c6Idxs).1.filter (fun m => decide (m.kind = .cat))
        = c6Mats.filter (fun m => decide (m.kind = .cat))
    ∧ (typePositions .dense (combineMatrices c6Mats c6Idxs).1).length ≤ 1 :=
  ⟨by decide,
   (combine_matrices_equiv 2 3 Dtype.f64 c6Mats c6Idxs (by decide)).1,
   (combine_matrices_equiv 2 3 Dtype.f64 c6Mats c6Idxs (by decide)).2.1 0 1
     (by decide),
   (combine_matrices_equiv 2 3 Dtype.f64 c6Mats c6Idxs (by decide)).2.2.2.1,
   (combine_matrices_equiv 2 3 Dtype.f64 c6Mats c6Idxs (by decide)).2.2.2.2.1⟩

/-!
### SparseMatrix matvec dispatch (sparse_matrix.py:121-188) and output
buffers (C3, C7)
-/

/-- A numpy operand after `np.asarray`: a 1-D vector, or a 2-D array
stored as its list of columns with an explicit column count. -/
inductive Operand where
  | one (dtype : Dtype) (xs : List ℚ)
  | two (dtype : Dtype) (width : ℕ) (vcols : List (List ℚ))
deriving DecidableEq

/-- The operand's dtype tag. -/
def Operand.dtype : Operand → Dtype
  | .one dt _ => dt
  | .two dt _ _ => dt

/-- A caller-supplied output buffer of either dimensionality, stored
column-wise in the 2-D case. -/
inductive Buf where
  | one (xs : List ℚ)
  | two (ocols : List (List ℚ))
deriving DecidableEq

/-- The dtype error raised by the MKL product and the typed native
kernels on mismatched operand dtypes. -/
inductive SpErr where
  | dtypeMismatch
deriving DecidableEq

/-- Unrestricted product `X @ v` of the sparse matrix. -/
def SpMat.mv (M : SpMat) (v : List ℚ) : List ℚ :=
  (List.range M.nrows).map
    (fun r => ((List.range M.ncols).map (fun j => M.entry r j * v.getD j 0)).sum)

/-- Unrestricted product `X.T @ v` of the sparse matrix. -/
def SpMat.tmv (M : SpMat) (v : List ℚ) : List ℚ :=
  (List.range M.ncols).map
    (fun j => ((List.range M.nrows).map (fun r => M.entry r j * v.getD r 0)).sum)

/-- Modelled from the spec: the typed native kernel
`csr_matvec(x_csr, v, rows, cols)` (ext module, called at
sparse_matrix.py:157), the row-restricted product
`(X[rows][:, cols] @ v[cols])`. -/
def csrMatvecK (M : SpMat) (v : List ℚ) (rows cols : List ℕ) : List ℚ :=
  rows.map (fun r => (cols.map (fun j => M.entry r j * v.getD j 0)).sum)

/-- Modelled from the spec: the typed native kernel
`csc_rmatvec(self, v, rows, cols)` (ext module, called at
sparse_matrix.py:155), the restricted transpose product
`(X[rows][:, cols].T @ v[rows])`. -/
def cscRmatvecK (M : SpMat) (v : List ℚ) (rows cols : List ℕ) : List ℚ :=
  cols.map (fun j => (rows.map (fun r => M.entry r j * v.getD r 0)).sum)

/-- Fancy-indexed accumulation `out[pos] += res` over a 1-D buffer
(positions assumed unique, as the source notes). -/
def scatterAdd (o : List ℚ) (pos : List ℕ) (res : List ℚ) : List ℚ :=
  (List.range o.length).map
    (fun p => o.getD p 0 + if p ∈ pos then res.getD (pos.indexOf p) 0 else 0)

/-- `SparseMatrix.matvec_helper` (sparse_matrix.py:121-172).  The
dispatch mirrors the source: when rows and cols are absent or of full
length, a 1-D operand (or the first column of a single-column 2-D
operand) goes to `dot_product_mkl`, which per its contract (modelled
from the spec) rejects a dtype mismatch and accumulates into `out`;
a wider 2-D operand goes to the scipy product, which upcasts silently,
followed by `out += res`.  Otherwise the typed restricted kernels
(modelled from the spec, dtype-checked) compute `res` and `out[cols]`
(transpose) or `out[rows]` (no transpose) is accumulated. -/
def SpMat.matvecHelper (M : SpMat) (vec : Operand) (rows? cols? : Option (List ℕ))
    (out? : Option Buf) (transpose : Bool) : Except SpErr Buf :=
  let unr : Bool :=
    (match rows? with
     | none => true
     | some rs => rs.length == M.nrows)
    && (match cols? with
        | none => true
        | some cs => cs.length == M.ncols)
  let rows := effSel rows? M.nrows
  let cols := effSel cols? M.ncols
  if unr then
    match vec with
    | .one vdt xs =>
        if M.dtype = vdt then
          let res := if transpose then M.tmv xs else M.mv xs
          .ok (.one (match out? with
            | some (.one o) => List.zipWith (· + ·) o res
            | _ => res))
        else .error .dtypeMismatch
    | .two vdt w vcols =>
        if w = 1 then
          if M.dtype = vdt then
            let res := if transpose then M.tmv (vcols.getD 0 [])
              else M.mv (vcols.getD 0 [])
            .ok (.two [match out? with
              | some (.two os) => List.zipWith (· + ·) (os.getD 0 []) res
              | _ => res])
          else .error .dtypeMismatch
        else
          let res := vcols.map (fun vc => if transpose then M.tmv vc else M.mv vc)
          .ok (match out? with
            | some (.two os) =>
                .two (List.zipWith (fun o rc => List.zipWith (· + ·) o rc) os res)
            | _ => .two res)
  else
    match vec with
    | .one vdt xs =>
        if M.dtype = vdt then
          let res := if transpose then cscRmatvecK M xs rows cols
            else csrMatvecK M xs rows cols
          .ok (.one (match out? with
            | some (.one o) => scatterAdd o (if transpose then cols else rows) res
            | _ => res))
        else .error .dtypeMismatch
    | .two vdt w vcols =>
        if w = 1 then
          if M.dtype = vdt then
            let res := if transpose then cscRmatvecK M (vcols.getD 0 []) rows cols
              else csrMatvecK M (vcols.getD 0 []) rows cols
            .ok (.two [match out? with
              | some (.two os) =>
                  scatterAdd (os.getD 0 []) (if transpose then cols else rows) res
              | _ => res])
          else .error .dtypeMismatch
        else
          let res := vcols.map (fun vc => if transpose then cscRmatvecK M vc rows cols
            else csrMatvecK M vc rows cols)
          .ok (match out? with
            | some (.two os) =>
                .two (List.zipWith
                  (fun o rc => scatterAdd o (if transpose then cols else rows) rc)
                  os res)
            | _ => .two res)

/-- The explicit dtype check of `SparseMatrix.sandwich`
(sparse_matrix.py:66-73): a weight vector of any other dtype raises
TypeError before any computation. -/
def SpMat.sandwichCheck (M : SpMat) (ddt : Dtype) : Except SpErr Unit :=
  if M.dtype = ddt then .ok () else .error .dtypeMismatch

/-- A concrete float64 sparse matrix (the 2x2 identity) for the C3
counterexample and witness. -/
def spC3Mat : SpMat := ⟨2, [[1, 0], [0, 1]], .f64⟩

/-- Counterexample to C3: against the float64 matrix, a float32 2-D
operand with two columns is accepted by both `matvec` and
`transpose_matvec`: the multi-column branch (sparse_matrix.py:145,163)
calls the scipy product, which upcasts silently and performs no dtype
check, so no type error is raised. -/
theorem sparse_matvec_dtype_mismatch_cex :
    (Operand.two .f32 2 [[1, 2], [3, 4]]).dtype ≠ spC3Mat.dtype
    ∧ (∃ b, spC3Mat.matvecHelper (.two .f32 2 [[1, 2], [3, 4]]) none none none false
        = .ok b)
    ∧ (∃ b, spC3Mat.matvecHelper (.two .f32 2 [[1, 2], [3, 4]]) none none none true
        = .ok b) :=
  ⟨by decide, ⟨_, rfl⟩, ⟨_, rfl⟩⟩

/-- C3 (amended): on a dtype-mismatched operand, `matvec` and
`transpose_matvec` raise a type error if and only if the operand is
1-D or a single-column 2-D array (those reach the dtype-checked MKL
product or typed restricted kernels); a 2-D operand with any other
width reaches the scipy product and succeeds silently.  `sandwich`, by
contrast, explicitly rejects every dtype-mismatched weight vector. -/
theorem sparse_matvec_dtype_error_iff (M : SpMat) (vec : Operand)
    (rows? cols? : Option (List ℕ)) (out? : Option Buf) (t : Bool)
    (hmis : vec.dtype ≠ M.dtype) :
    ((∃ e, M.matvecHelper vec rows? cols? out? t = .error e)
        ↔ (match vec with | .one _ _ => True | .two _ w _ => w = 1))
    ∧ (∀ ddt, ddt ≠ M.dtype → M.sandwichCheck ddt = .error .dtypeMismatch) := by
  constructor
  · cases vec with
    | one vdt xs =>
        simp only [Operand.dtype] at hmis
        have hneq : ¬ M.dtype = vdt := fun he => hmis he.symm
        simp only [SpMat.matvecHelper, if_neg hneq, ite_self]
        exact iff_of_true ⟨.dtypeMismatch, trivial⟩ trivial
    | two vdt w vcols =>
        simp only [Operand.dtype] at hmis
        have hneq : ¬ M.dtype = vdt := fun he => hmis he.symm
        by_cases hw : w = 1
        · simp only [SpMat.matvecHelper, if_pos hw, if_neg hneq, ite_self]
          exact iff_of_true ⟨.dtypeMismatch, trivial⟩ hw
        · simp only [SpMat.matvecHelper, if_neg hw]
          constructor
          · rintro ⟨e, he⟩
            split at he
            · split at he <;> exact Except.noConfusion he
            · split at he <;> exact Except.noConfusion he
          · intro h1
            exact absurd h1 hw
  · intro ddt hd
    unfold SpMat.sandwichCheck
    rw [if_neg (fun he => hd he.symm)]

/-- Witness for the amended C3 theorem: on the concrete float64 matrix
and a 1-D float32 operand the hypotheses hold, matvec raises the dtype
error, and `sandwich`'s check rejects float32 weights. -/
theorem sparse_matvec_dtype_error_iff_witness :
    (Operand.one Dtype.f32 [1, 2]).dtype ≠ spC3Mat.dtype
    ∧ ((∃ e, spC3Mat.matvecHelper (.one .f32 [1, 2]) none none none false
        = .error e) ↔ True)
    ∧ spC3Mat.sandwichCheck .f32 = .error .dtypeMismatch :=
  ⟨by decide,
   (sparse_matvec_dtype_error_iff spC3Mat (.one .f32 [1, 2]) none none none false
     (by decide)).1,
   (sparse_matvec_dtype_error_iff spC3Mat (.one .f32 [1, 2]) none none none false
     (by decide)).2 .f32 (by decide)⟩

/-- Adding into a buffer that already absorbed a zero buffer of the
same length is plain addition. -/
theorem zipAdd_zipAdd_replicate (o r : List ℚ) :
    List.zipWith (· + ·) o
        (List.zipWith (· + ·) (List.replicate o.length 0) r)
      = List.zipWith (· + ·) o r := by
  apply List.ext_getElem
  · simp [List.length_zipWith]
  · intro i h1 h2
    simp [List.getElem_zipWith, List.length_zipWith] at h1 ⊢

/-- Scatter-adding into a zero buffer then adding the original buffer
is scatter-adding into the original buffer. -/
theorem scatterAdd_zipAdd_replicate (o : List ℚ) (pos : List ℕ) (res : List ℚ) :
    List.zipWith (· + ·) o (scatterAdd (List.replicate o.length 0) pos res)
      = scatterAdd o pos res := by
  apply List.ext_getElem
  · simp [scatterAdd, List.length_zipWith]
  · intro i h1 h2
    have hio : i < o.length := by
      simpa [scatterAdd] using h2
    simp only [scatterAdd, List.length_replicate, List.getElem_zipWith,
      List.getElem_map, List.getElem_range]
    rw [getD_replicate, List.getD_eq_getElem o 0 hio]
    ring

/-- Addition of rational lists is associative entrywise. -/
theorem zipWith_add_assoc (a b r : List ℚ) :
    List.zipWith (· + ·) (List.zipWith (· + ·) a b) r
      = List.zipWith (· + ·) a (List.zipWith (· + ·) b r) := by
  apply List.ext_getElem
  · simp [List.length_zipWith]
  · intro i h1 h2
    simp [List.getElem_zipWith]
    ring

/-- A fold of elementwise additions starting from an already
accumulated buffer accumulates on top of it. -/
theorem foldl_zipAdd_accum :
    ∀ (rs : List (List ℚ)) (a b : List ℚ),
      rs.foldl (fun o r => List.zipWith (· + ·) o r) (List.zipWith (· + ·) a b)
        = List.zipWith (· + ·) a
            (rs.foldl (fun o r => List.zipWith (· + ·) o r) b) := by
  intro rs
  induction rs with
  | nil => intro a b; rfl
  | cons r rest ih =>
      intro a b
      rw [List.foldl_cons, List.foldl_cons, zipWith_add_assoc]
      exact ih a (List.zipWith (· + ·) b r)

/-- Scatter-adding distributes over a previously added buffer. -/
theorem scatterAdd_zipAdd (a b : List ℚ) (pos : List ℕ) (res : List ℚ) :
    scatterAdd (List.zipWith (· + ·) a b) pos res
      = List.zipWith (· + ·) a (scatterAdd b pos res) := by
  apply List.ext_getElem
  · simp [scatterAdd, List.length_zipWith]
  · intro i h1 h2
    have h2' : i < a.length ∧ i < b.length := by
      simp [scatterAdd, List.length_zipWith] at h2
      omega
    simp only [scatterAdd, List.getElem_map, List.getElem_range,
      List.getElem_zipWith]
    rw [List.getD_eq_getElem _ _ (by simp [List.length_zipWith]; omega),
      List.getD_eq_getElem b 0 h2'.2]
    simp [List.getElem_zipWith]
    ring

/-- A fold of scatter-additions starting from an already accumulated
buffer accumulates on top of it. -/
theorem foldl_scatterAdd_accum :
    ∀ (prs : List (List ℕ × List ℚ)) (a b : List ℚ),
      prs.foldl (fun o pr => scatterAdd o pr.1 pr.2) (List.zipWith (· + ·) a b)
        = List.zipWith (· + ·) a
            (prs.foldl (fun o pr => scatterAdd o pr.1 pr.2) b) := by
  intro prs
  induction prs with
  | nil => intro a b; rfl
  | cons pr rest ih =>
      intro a b
      rw [List.foldl_cons, List.foldl_cons, scatterAdd_zipAdd]
      exact ih a (scatterAdd b pr.1 pr.2)

/-- Adding a zero buffer of matching length changes nothing. -/
theorem zipAdd_replicate_right (o : List ℚ) :
    List.zipWith (· + ·) o (List.replicate o.length 0) = o := by
  apply List.ext_getElem
  · simp [List.length_zipWith]
  · intro i h1 h2
    simp [List.getElem_zipWith]

/-- Modelled from the spec: a sub-matrix's `matvec(v_local, local_cols)`
reference semantics, `sum over j in local_cols of X[r, j] * v_local[j]`
for every row `r`. -/
def SubMat.mvRes (m : SubMat) (vloc : List ℚ) (lc? : Option (List ℕ)) : List ℚ :=
  (List.range m.nrows).map
    (fun r => ((effSel lc? m.ncols).map (fun j => m.entry r j * vloc.getD j 0)).sum)

/-- Modelled from the spec: a sub-matrix's
`transpose_matvec(v, rows, local_cols)` reference semantics,
`sum over r in rows of X[r, j] * v[r]` for every selected column `j`. -/
def SubMat.tmvRes (m : SubMat) (v : List ℚ) (rows? lc? : Option (List ℕ)) : List ℚ :=
  (effSel lc? m.ncols).map
    (fun j => ((effSel rows? m.nrows).map (fun r => m.entry r j * v.getD r 0)).sum)

/-- The per-component contributions of `SplitMatrix.matvec`
(split_matrix.py:306-308): component `i` computes
`mat.matvec(v[idx], sub_cols)`. -/
def SplitMat.mvResList (S : SplitMat) (v : List ℚ) (cols? : Option (List ℕ)) :
    List (List ℚ) :=
  (List.range S.mats.length).map
    (fun i => (S.mats.getD i default).mvRes
      ((S.indices.getD i []).map (fun g => v.getD g 0))
      (((S.splitColSubsets cols?).2.1).getD i none))

/-- `SplitMatrix.matvec` (split_matrix.py:289-309) with a caller-supplied
out buffer: every component call `mat.matvec(v[idx], sub_cols, out=out)`
accumulates its full-height product into the shared buffer. -/
def SplitMat.matvecOut (S : SplitMat) (v : List ℚ) (cols? : Option (List ℕ))
    (out : List ℚ) : List ℚ :=
  (S.mvResList v cols?).foldl (fun o r => List.zipWith (· + ·) o r) out

/-- The per-component scatter positions and fresh results of
`SplitMatrix.transpose_matvec` (split_matrix.py:339-344): component `i`
computes `mat.transpose_matvec(v, rows, sub_cols)` and its slice of the
out buffer is `idx` (the output-slot list) when no column request was
given, else `cols[idx]`. -/
def SplitMat.tmvPairs (S : SplitMat) (v : List ℚ) (rows? cols? : Option (List ℕ)) :
    List (List ℕ × List ℚ) :=
  (List.range S.mats.length).map
    (fun i =>
      (match cols? with
       | none => ((S.splitColSubsets cols?).1).getD i []
       | some cv => (((S.splitColSubsets cols?).1).getD i []).map
           (fun s => cv.getD s 0),
       (S.mats.getD i default).tmvRes v rows?
         (((S.splitColSubsets cols?).2.1).getD i none)))

/-- `SplitMatrix.transpose_matvec` (split_matrix.py:311-345) with a
caller-supplied out buffer: every component's fresh result is
scatter-added into the buffer at its positions  (`out[idx] += res` /
`out[cols[idx]] += res`). -/
def SplitMat.transposeMatvecOut (S : SplitMat) (v : List ℚ)
    (rows? cols? : Option (List ℕ)) (out : List ℚ) : List ℚ :=
  (S.tmvPairs v rows? cols?).foldl (fun o pr => scatterAdd o pr.1 pr.2) out

/-- Columnwise accumulation into buffers that already absorbed zero
buffers is columnwise accumulation. -/
theorem zipWith_acc_map (g : List ℚ → List ℚ → List ℚ)
    (hg : ∀ o r, List.zipWith (· + ·) o (g (List.replicate o.length 0) r) = g o r)
    (os res : List (List ℚ)) :
    List.zipWith (fun o p => List.zipWith (· + ·) o p) os
        (List.zipWith g (os.map (fun o => List.replicate o.length 0)) res)
      = List.zipWith g os res := by
  apply List.ext_getElem
  · simp [List.length_zipWith]
  · intro i h1 h2
    simp only [List.getElem_zipWith, List.getElem_map]
    exact hg _ _

/-- C7: a caller-supplied out buffer is accumulated into, never
overwritten.  For every path of the sparse `matvec_helper` (1-D,
single-column 2-D and wider 2-D operands, restricted or not), for
`SplitMatrix.matvec` and `SplitMatrix.transpose_matvec`, and for
`StandardizedMatrix.matvec` and `transpose_matvec`: calling with buffer
`out` returns, entry by entry, `out` plus the contribution the same
call deposits into a zero buffer — so repeated calls with one buffer
sum their results. -/
theorem out_buffer_accumulates :
    (∀ (M : SpMat) (vdt : Dtype) (xs : List ℚ) (rows? cols? : Option (List ℕ))
        (t : Bool) (o : List ℚ), M.dtype = vdt →
      ∃ P, M.matvecHelper (.one vdt xs) rows? cols?
            (some (.one (List.replicate o.length 0))) t = .ok (.one P)
        ∧ M.matvecHelper (.one vdt xs) rows? cols? (some (.one o)) t
            = .ok (.one (List.zipWith (· + ·) o P)))
    ∧ (∀ (M : SpMat) (vdt : Dtype) (vcols : List (List ℚ))
        (rows? cols? : Option (List ℕ)) (t : Bool) (o0 : List ℚ), M.dtype = vdt →
      ∃ P, M.matvecHelper (.two vdt 1 vcols) rows? cols?
            (some (.two [List.replicate o0.length 0])) t = .ok (.two [P])
        ∧ M.matvecHelper (.two vdt 1 vcols) rows? cols? (some (.two [o0])) t
            = .ok (.two [List.zipWith (· + ·) o0 P]))
    ∧ (∀ (M : SpMat) (vdt : Dtype) (w : ℕ) (vcols : List (List ℚ))
        (rows? cols? : Option (List ℕ)) (t : Bool) (os : List (List ℚ)), w ≠ 1 →
      ∃ Ps, M.matvecHelper (.two vdt w vcols) rows? cols?
            (some (.two (os.map (fun o => List.replicate o.length 0)))) t
            = .ok (.two Ps)
        ∧ M.matvecHelper (.two vdt w vcols) rows? cols? (some (.two os)) t
            = .ok (.two (List.zipWith (fun o p => List.zipWith (· + ·) o p) os Ps)))
    ∧ (∀ (S : SplitMat) (v : List ℚ) (cols? : Option (List ℕ)) (o : List ℚ),
      S.matvecOut v cols? o
        = List.zipWith (· + ·) o (S.matvecOut v cols? (List.replicate o.length 0)))
    ∧ (∀ (S : SplitMat) (v : List ℚ) (rows? cols? : Option (List ℕ)) (o : List ℚ),
      S.transposeMatvecOut v rows? cols? o
        = List.zipWith (· + ·) o
            (S.transposeMatvecOut v rows? cols? (List.replicate o.length 0)))
    ∧ (∀ (S : StdMat) (v : List ℚ) (cols? : Option (List ℕ)) (o : List ℚ),
      o.length = S.nrows →
      S.matvec v cols? (some o)
        = List.zipWith (· + ·) o (S.matvec v cols? none))
    ∧ (∀ (S : StdMat) (v : List ℚ) (rows? cols? : Option (List ℕ)) (o : List ℚ),
      S.transposeMatvec v rows? cols? (some o)
        = List.zipWith (· + ·) o
            (S.transposeMatvec v rows? cols?
              (some (List.replicate o.length 0)))) := by
  refine ⟨?_, ?_, ?_, ?_, ?_, ?_, ?_⟩
  · intro M vdt xs rows? cols? t o h
    by_cases hu : ((match rows? with
        | none => true
        | some rs => rs.length == M.nrows)
      && (match cols? with
          | none => true
          | some cs => cs.length == M.ncols)) = true
    · refine ⟨List.zipWith (· + ·) (List.replicate o.length 0)
        (if t then M.tmv xs else M.mv xs), ?_, ?_⟩
      · simp only [SpMat.matvecHelper, if_pos hu, if_pos h]
      · simp only [SpMat.matvecHelper, if_pos hu, if_pos h]
        exact congrArg Except.ok
          (congrArg Buf.one (zipAdd_zipAdd_replicate o _).symm)
    · refine ⟨scatterAdd (List.replicate o.length 0)
        (if t then effSel cols? M.ncols else effSel rows? M.nrows)
        (if t then cscRmatvecK M xs (effSel rows? M.nrows) (effSel cols? M.ncols)
          else csrMatvecK M xs (effSel rows? M.nrows) (effSel cols? M.ncols)),
        ?_, ?_⟩
      · simp only [SpMat.matvecHelper, if_neg hu, if_pos h]
      · simp only [SpMat.matvecHelper, if_neg hu, if_pos h]
        exact congrArg Except.ok
          (congrArg Buf.one (scatterAdd_zipAdd_replicate o _ _).symm)
  · intro M vdt vcols rows? cols? t o0 h
    have h1 : (1 : ℕ) = 1 := rfl
    by_cases hu : ((match rows? with
        | none => true
        | some rs => rs.length == M.nrows)
      && (match cols? with
          | none => true
          | some cs => cs.length == M.ncols)) = true
    · refine ⟨List.zipWith (· + ·) (List.replicate o0.length 0)
        (if t then M.tmv (vcols.getD 0 []) else M.mv (vcols.getD 0 [])), ?_, ?_⟩
      · simp only [SpMat.matvecHelper, if_pos hu, if_pos h, if_pos h1, if_true, List.getD_cons_zero]
      · simp only [SpMat.matvecHelper, if_pos hu, if_pos h, if_pos h1, if_true, List.getD_cons_zero]
        exact congrArg Except.ok (congrArg Buf.two
          (congrArg (fun l => [l]) (zipAdd_zipAdd_replicate o0 _).symm))
    · refine ⟨scatterAdd (List.replicate o0.length 0)
        (if t then effSel cols? M.ncols else effSel rows? M.nrows)
        (if t then cscRmatvecK M (vcols.getD 0 [])
            (effSel rows? M.nrows) (effSel cols? M.ncols)
          else csrMatvecK M (vcols.getD 0 [])
            (effSel rows? M.nrows) (effSel cols? M.ncols)), ?_, ?_⟩
      · simp only [SpMat.matvecHelper, if_neg hu, if_pos h, if_pos h1, if_true, List.getD_cons_zero]
      · simp only [SpMat.matvecHelper, if_neg hu, if_pos h, if_pos h1, if_true, List.getD_cons_zero]
        exact congrArg Except.ok (congrArg Buf.two
          (congrArg (fun l => [l]) (scatterAdd_zipAdd_replicate o0 _ _).symm))
  · intro M vdt w vcols rows? cols? t os hw
    by_cases hu : ((match rows? with
        | none => true
        | some rs => rs.length == M.nrows)
      && (match cols? with
          | none => true
          | some cs => cs.length == M.ncols)) = true
    · refine ⟨List.zipWith (fun z rc => List.zipWith (· + ·) z rc)
        (os.map (fun o => List.replicate o.length 0))
        (vcols.map (fun vc => if t then M.tmv vc else M.mv vc)), ?_, ?_⟩
      · simp only [SpMat.matvecHelper, if_pos hu, if_neg hw]
      · simp only [SpMat.matvecHelper, if_pos hu, if_neg hw]
        exact congrArg Except.ok (congrArg Buf.two
          (zipWith_acc_map _ (fun o r => zipAdd_zipAdd_replicate o r) os _).symm)
    · refine ⟨List.zipWith
        (fun z rc => scatterAdd z
          (if t then effSel cols? M.ncols else effSel rows? M.nrows) rc)
        (os.map (fun o => List.replicate o.length 0))
        (vcols.map (fun vc =>
          if t then cscRmatvecK M vc (effSel rows? M.nrows) (effSel cols? M.ncols)
          else csrMatvecK M vc (effSel rows? M.nrows) (effSel cols? M.ncols))),
        ?_, ?_⟩
      · simp only [SpMat.matvecHelper, if_neg hu, if_neg hw]
      · simp only [SpMat.matvecHelper, if_neg hu, if_neg hw]
        exact congrArg Except.ok (congrArg Buf.two
          (zipWith_acc_map _
            (fun o r => scatterAdd_zipAdd_replicate o _ r) os _).symm)
  · intro S v cols? o
    unfold SplitMat.matvecOut
    have h0 : o = List.zipWith (· + ·) o (List.replicate o.length 0) :=
      (zipAdd_replicate_right o).symm
    conv_lhs => rw [h0]
    exact foldl_zipAdd_accum _ o _
  · intro S v rows? cols? o
    unfold SplitMat.transposeMatvecOut
    have h0 : o = List.zipWith (· + ·) o (List.replicate o.length 0) :=
      (zipAdd_replicate_right o).symm
    conv_lhs => rw [h0]
    exact foldl_scatterAdd_accum _ o _
  · intro S v cols? o ho
    apply List.ext_getElem
    · simp [StdMat.matvec, List.length_zipWith, ho]
    · intro i h1 h2
      have hio : i < o.length := by
        simpa [StdMat.matvec] using h1
      simp only [StdMat.matvec, Option.getD_some, Option.getD_none,
        List.getElem_zipWith, List.getElem_map, List.getElem_range,
        List.length_map, List.length_range, List.length_replicate]
      rw [getD_replicate, List.getD_eq_getElem o 0 hio]
      ring
  · intro S v rows? cols? o
    simp only [StdMat.transposeMatvec]
    exact (scatterAdd_zipAdd_replicate o _ _).symm

/-- Witness for C7: on the concrete float64 sparse matrix with a
matching 1-D operand the accumulation equation holds for the buffer
`[5, 6]`, and on the concrete StandardizedMatrix the matvec with buffer
`[9]` equals the buffer plus the fresh product. -/
theorem out_buffer_accumulates_witness :
    spC3Mat.dtype = Dtype.f64
    ∧ (∃ P, spC3Mat.matvecHelper (.one .f64 [1, 2]) none none
          (some (.one (List.replicate ([5, 6] : List ℚ).length 0))) false
          = .ok (.one P)
        ∧ spC3Mat.matvecHelper (.one .f64 [1, 2]) none none
            (some (.one [5, 6])) false
            = .ok (.one (List.zipWith (· + ·) ([5, 6] : List ℚ) P)))
    ∧ (([9] : List ℚ).length = stdWitnessMat.nrows
        ∧ stdWitnessMat.matvec [7, 8] none (some [9])
            = List.zipWith (· + ·) ([9] : List ℚ)
                (stdWitnessMat.matvec [7, 8] none none)) :=
  ⟨rfl,
   out_buffer_accumulates.1 spC3Mat .f64 [1, 2] none none false [5, 6] rfl,
   ⟨by decide,
    out_buffer_accumulates.2.2.2.2.2.1 stdWitnessMat [7, 8] none [9] (by decide)⟩⟩

end Tabmat
